import Mathlib

/-!
Verification of the decorator-chain syntax highlighter in `src/5_2.cpp`.

Strings are modelled as `List Char`; `std::string::find`, `substr` and
`replace` become `findFrom`, `extract` and explicit `take ++ _ ++ drop`.
The mutating scan loops of the C++ renderers (`KeywordHighlighter::render`,
`StringHighlighter::render`, `CommentHighlighter::render`) are modelled as
fuel-indexed structural recursions (`kwLoopAdvF`, `strLoopF`, `comLoopF`);
the fuel `s.length + 1 - pos` is proved sufficient, and each loop's
one-step unfolding equation is proved as a theorem, so the loops satisfy
exactly the recurrences of the C++ `while` loops.
-/

/-- C's `isalnum` in the default locale: ASCII letters and digits.
Lean's `Char.isAlphanum` checks exactly that. -/
def isAlnum (c : Char) : Bool := c.isAlphanum

/-- The last element of `l`, or the fallback `d` when `l` is empty.
Used to track the character standing immediately before a scan cursor. -/
def lastOr (l : List Char) (d : Option Char) : Option Char :=
  match l.getLast? with
  | some c => some c
  | none => d

/-- `pat` occurs in `s` starting at index `p`. -/
def occursAt (pat s : List Char) (p : Nat) : Bool :=
  pat.isPrefixOf (s.drop p)

/-- Index of the first occurrence of `pat` in `s` (like `std::string::find`
with start position 0). -/
def findSubstr (pat : List Char) : List Char → Option Nat
  | [] => if pat.isEmpty then some 0 else none
  | c :: rest =>
    if pat.isPrefixOf (c :: rest) then some 0
    else (findSubstr pat rest).map (· + 1)

/-- `std::string::find(pat, pos)`: first occurrence of `pat` at index
`≥ pos`, as an absolute index. -/
def findFrom (pat s : List Char) (pos : Nat) : Option Nat :=
  (findSubstr pat (s.drop pos)).map (· + pos)

/-- `std::string::substr(pos, count)`. -/
def extract (s : List Char) (pos count : Nat) : List Char :=
  (s.drop pos).take count

/-- Number of indices at which `pat` occurs in `s`. -/
def countSubstr (pat s : List Char) : Nat :=
  ((List.range (s.length + 1)).filter (fun p => occursAt pat s p)).length

/-! ## The embedded source code -/

/-- `PlainCodeRenderer::render` (src/5_2.cpp:14-16):
`"<pre style='font-family: monospace;'>" + code + "</pre>"`. -/
def plainRender (code : List Char) : List Char :=
  "<pre style='font-family: monospace;'>".data ++ code ++ "</pre>".data

/-- `KeywordHighlighter::KeywordColor` (src/5_2.cpp:31-34). -/
structure KeywordColor where
  keyword : String
  color : String
deriving DecidableEq, Repr

/-- The fixed rule table `keywordsWithColors` (src/5_2.cpp:36-50). -/
def keywordsWithColors : List KeywordColor :=
  [⟨"int", "blue"⟩,
   ⟨"void", "blue"⟩,
   ⟨"class", "purple"⟩,
   ⟨"public", "purple"⟩,
   ⟨"private", "purple"⟩,
   ⟨"return", "darkblue"⟩,
   ⟨"if", "darkorange"⟩,
   ⟨"else", "darkorange"⟩,
   ⟨"for", "darkorange"⟩,
   ⟨"while", "darkorange"⟩,
   ⟨"#include", "red"⟩,
   ⟨"cout", "blue"⟩,
   ⟨"string", "green"⟩]

/-- The replacement string built at src/5_2.cpp:64:
`"<span style='color: " + color + ";'>" + keyword + "</span>"`. -/
def keywordReplacement (kc : KeywordColor) : List Char :=
  "<span style='color: ".data ++ kc.color.data ++ ";'>".data
    ++ kc.keyword.data ++ "</span>".data

/-- The inner `while` loop of `KeywordHighlighter::render` for one rule
(src/5_2.cpp:59-70), generalized over the cursor advance `adv` used when a
candidate fails the word-boundary check (the source uses
`adv = kw.length`; claim C10 compares it with `adv = 1`), and indexed by
fuel to make the recursion structural.  One fuel unit is one loop
iteration; `kwLoopAdv` below supplies provably sufficient fuel.
The `kw = []` guard only rules out the empty search pattern, on which the
C++ loop would not terminate; every rule's keyword is nonempty. -/
def kwLoopAdvF (fuel : Nat) (kw repl : List Char) (adv : Nat)
    (s : List Char) (pos : Nat) : List Char :=
  match fuel with
  | 0 => s
  | fuel + 1 =>
    if kw.isEmpty then s else
    match findFrom kw s pos with
    | none => s
    | some p =>
      if ((p == 0) || !(isAlnum (s.getD (p - 1) ' ')))
          && ((p + kw.length == s.length)
              || !(isAlnum (s.getD (p + kw.length) ' '))) then
        kwLoopAdvF fuel kw repl adv
          (s.take p ++ repl ++ s.drop (p + kw.length)) (p + repl.length)
      else
        kwLoopAdvF fuel kw repl adv s (p + adv)

/-- The per-rule keyword scan loop with sufficient fuel. -/
def kwLoopAdv (kw repl : List Char) (adv : Nat) (s : List Char) (pos : Nat) :
    List Char :=
  kwLoopAdvF (s.length + 1 - pos) kw repl adv s pos

/-- The source's per-rule loop: on a rejected candidate the cursor advances
past the full match length (`pos += kw.keyword.length()`, src/5_2.cpp:68). -/
def kwLoop (kw repl : List Char) (s : List Char) (pos : Nat) : List Char :=
  kwLoopAdv kw repl kw.length s pos

/-- The full text transformation of `KeywordHighlighter::render`
(src/5_2.cpp:55-72 before the delegation): the rules applied in declared
order, the output of each rule feeding the next. -/
def keywordTransform (s : List Char) : List Char :=
  keywordsWithColors.foldl
    (fun acc kc => kwLoop kc.keyword.data (keywordReplacement kc) acc 0) s

/-- The closing span tag `"</span>"`. -/
def spanClose : List Char := "</span>".data

/-- The green span replacement built at src/5_2.cpp:87-88:
`original = highlighted.substr(pos, end - pos + 1)` wrapped in
`"<span style='color: green;'>" + original + "</span>"`. -/
def strRepl (s : List Char) (p e : Nat) : List Char :=
  "<span style='color: green;'>".data ++ extract s p (e - p + 1) ++ spanClose

/-- Fuel-indexed loop of `StringHighlighter::render` (src/5_2.cpp:82-91):
find a double quote, find the next one after it (stop if none), wrap the
inclusive span in a green span, resume past the replacement. -/
def strLoopF (fuel : Nat) (s : List Char) (pos : Nat) : List Char :=
  match fuel with
  | 0 => s
  | fuel + 1 =>
    match findFrom ['"'] s pos with
    | none => s
    | some p =>
      match findFrom ['"'] s (p + 1) with
      | none => s
      | some e =>
        strLoopF fuel (s.take p ++ strRepl s p e ++ s.drop (e + 1))
          (p + (strRepl s p e).length)

/-- The string-literal scan loop with sufficient fuel. -/
def strLoop (s : List Char) (pos : Nat) : List Char :=
  strLoopF (s.length + 1 - pos) s pos

/-- The text transformation of `StringHighlighter::render`
(src/5_2.cpp:80-92 before the delegation). -/
def stringTransform (s : List Char) : List Char :=
  strLoop s 0

/-- The end of a comment starting at `p` (src/5_2.cpp:104-105): the first
newline at or after `p`, or the text length when there is none. -/
def comEnd (s : List Char) (p : Nat) : Nat :=
  match findFrom ['\n'] s p with
  | none => s.length
  | some e => e

/-- The gray span replacement built at src/5_2.cpp:107-108:
`comment = highlighted.substr(pos, end - pos)` wrapped in
`"<span style='color: gray;'>" + comment + "</span>"`. -/
def comRepl (s : List Char) (p e : Nat) : List Char :=
  "<span style='color: gray;'>".data ++ extract s p (e - p) ++ spanClose

/-- Fuel-indexed loop of `CommentHighlighter::render` (src/5_2.cpp:102-111):
find `//`, extend to the next newline (or end of text), wrap the span
excluding the newline in a gray span, resume past the replacement. -/
def comLoopF (fuel : Nat) (s : List Char) (pos : Nat) : List Char :=
  match fuel with
  | 0 => s
  | fuel + 1 =>
    match findFrom "//".data s pos with
    | none => s
    | some p =>
      comLoopF fuel (s.take p ++ comRepl s p (comEnd s p) ++ s.drop (comEnd s p))
        (p + (comRepl s p (comEnd s p)).length)

/-- The comment scan loop with sufficient fuel. -/
def comLoop (s : List Char) (pos : Nat) : List Char :=
  comLoopF (s.length + 1 - pos) s pos

/-- The text transformation of `CommentHighlighter::render`
(src/5_2.cpp:100-112 before the delegation). -/
def commentTransform (s : List Char) : List Char :=
  comLoop s 0

/-- The renderer class hierarchy (src/5_2.cpp:6-114): the base renderer and
the three decorators, each exclusively owning the renderer it wraps. -/
inductive Renderer where
  | plain : Renderer
  | keywordH : Renderer → Renderer
  | stringH : Renderer → Renderer
  | commentH : Renderer → Renderer

/-- Virtual dispatch of `render`: each decorator applies its own text
transformation, then delegates the transformed text to the wrapped
renderer; the base renderer wraps the text in the preformatted block. -/
def render : Renderer → List Char → List Char
  | .plain, code => plainRender code
  | .keywordH r, code => render r (keywordTransform code)
  | .stringH r, code => render r (stringTransform code)
  | .commentH r, code => render r (commentTransform code)

/-- The chain assembled in `main` (src/5_2.cpp:136-139): Plain, wrapped by
Keyword, wrapped by String, wrapped by Comment (outermost). -/
def mainRenderer : Renderer :=
  .commentH (.stringH (.keywordH .plain))

/-- The escaping letter-by-letter loop of `convertToHTML`
(src/5_2.cpp:117-122). -/
def escapeChar (c : Char) : List Char :=
  if c = '<' then "&lt;".data
  else if c = '>' then "&gt;".data
  else [c]

/-- The escaped buffer built by `convertToHTML` before rendering
(src/5_2.cpp:117-122): `escapedCode` grows by `escapeChar c` per input
character. -/
def escapeHTML (code : List Char) : List Char :=
  code.foldl (fun acc c => acc ++ escapeChar c) []

/-- The string printed by `convertToHTML` (src/5_2.cpp:116-124): the input
is escaped first, and only the escaped text enters the render chain. -/
def convertToHTML (r : Renderer) (code : List Char) : List Char :=
  render r (escapeHTML code)

/-! ## Facts about the search primitives -/

theorem isPrefixOf_iff_exists_append {pat l : List Char} :
    pat.isPrefixOf l = true ↔ ∃ t, pat ++ t = l := by
  rw [List.isPrefixOf_iff_prefix]
  exact Iff.rfl

theorem occursAt_iff {pat s : List Char} {p : Nat} :
    occursAt pat s p = true ↔ ∃ t, pat ++ t = s.drop p := by
  unfold occursAt
  exact isPrefixOf_iff_exists_append

theorem occursAt_cons_succ {pat : List Char} {c : Char} {rest : List Char}
    {r : Nat} : occursAt pat (c :: rest) (r + 1) = occursAt pat rest r := rfl

theorem occursAt_zero {pat s : List Char} :
    occursAt pat s 0 = pat.isPrefixOf s := rfl

theorem occursAt_nil_of_ne {pat : List Char} (hpat : pat ≠ []) {r : Nat} :
    occursAt pat [] r = false := by
  cases pat with
  | nil => exact absurd rfl hpat
  | cons c cs => simp [occursAt, List.isPrefixOf]

theorem occursAt_drop_eq {pat s : List Char} {p : Nat}
    (h : occursAt pat s p = true) :
    s.drop p = pat ++ s.drop (p + pat.length) := by
  obtain ⟨t, ht⟩ := occursAt_iff.mp h
  have hdrop : s.drop (p + pat.length) = t := by
    have h2 : (s.drop p).drop pat.length = t := by
      rw [← ht, List.drop_left]
    rwa [List.drop_drop] at h2
  rw [hdrop, ht]

theorem occursAt_decomp {pat s : List Char} {p : Nat}
    (h : occursAt pat s p = true) :
    s = s.take p ++ pat ++ s.drop (p + pat.length) := by
  conv_lhs => rw [← List.take_append_drop p s]
  rw [occursAt_drop_eq h, List.append_assoc]

theorem occursAt_length {pat s : List Char} {p : Nat} (hpat : pat ≠ [])
    (h : occursAt pat s p = true) : p + pat.length ≤ s.length := by
  obtain ⟨t, ht⟩ := occursAt_iff.mp h
  have hlen : pat.length + t.length = s.length - p := by
    have h2 := congrArg List.length ht
    simpa [List.length_drop] using h2
  have hp : p ≤ s.length := by
    by_contra hcon
    have h3 : s.drop p = [] := List.drop_eq_nil_of_le (by omega)
    rw [h3] at ht
    exact hpat (List.append_eq_nil.mp ht).1
  omega

theorem occursAt_getElem {pat s : List Char} {p : Nat}
    (h : occursAt pat s p = true) {i : Nat} (hi : i < pat.length) :
    s[p + i]? = pat[i]? := by
  obtain ⟨t, ht⟩ := occursAt_iff.mp h
  have h1 : s[p + i]? = (s.drop p)[i]? := (List.getElem?_drop s p i).symm
  rw [h1, ← ht, List.getElem?_append]
  simp [hi]

theorem occursAt_singleton {c : Char} {s : List Char} {p : Nat} :
    occursAt [c] s p = true ↔ s[p]? = some c := by
  constructor
  · intro h
    have h1 := occursAt_getElem h (show 0 < [c].length by simp)
    simpa using h1
  · intro h
    rw [occursAt_iff]
    refine ⟨s.drop (p + 1), ?_⟩
    have h2 := List.getElem?_drop s p 0
    rw [Nat.add_zero, h] at h2
    cases hd : s.drop p with
    | nil => rw [hd] at h2; simp at h2
    | cons x xs =>
      rw [hd] at h2
      simp at h2
      have hxs : xs = s.drop (p + 1) := by
        have h3 := congrArg (List.drop 1) hd
        rw [List.drop_drop] at h3
        simpa using h3.symm
      simp [h2, hxs]

theorem findSubstr_eq_none_iff {pat s : List Char} :
    findSubstr pat s = none ↔ ∀ r, occursAt pat s r = false := by
  induction s with
  | nil =>
    unfold findSubstr
    by_cases hpat : pat.isEmpty = true
    · rw [if_pos hpat]
      constructor
      · intro h; exact Option.noConfusion h
      · intro h
        have h1 := h 0
        rw [List.isEmpty_iff.mp hpat] at h1
        simp [occursAt, List.isPrefixOf] at h1
    · rw [if_neg hpat]
      have hp : pat ≠ [] := fun hh => hpat (by simp [hh])
      exact ⟨fun _ r => occursAt_nil_of_ne hp, fun _ => rfl⟩
  | cons c rest ih =>
    unfold findSubstr
    by_cases hpre : pat.isPrefixOf (c :: rest) = true
    · rw [if_pos hpre]
      constructor
      · intro h; exact Option.noConfusion h
      · intro h
        have h1 := h 0
        rw [occursAt_zero] at h1
        rw [h1] at hpre
        exact Bool.noConfusion hpre
    · rw [if_neg hpre]
      rw [Option.map_eq_none', ih]
      constructor
      · intro h r
        cases r with
        | zero =>
          rw [occursAt_zero]
          exact Bool.not_eq_true _ ▸ (Bool.eq_false_iff.mpr (by
            intro hh; exact hpre hh))
        | succ r' => rw [occursAt_cons_succ]; exact h r'
      · intro h r
        have h1 := h (r + 1)
        rwa [occursAt_cons_succ] at h1

theorem findSubstr_eq_some_iff {pat s : List Char} {q : Nat} :
    findSubstr pat s = some q ↔
      occursAt pat s q = true ∧ ∀ r, r < q → occursAt pat s r = false := by
  induction s generalizing q with
  | nil =>
    unfold findSubstr
    by_cases hpat : pat.isEmpty = true
    · rw [if_pos hpat]
      constructor
      · intro h
        have hq : q = 0 := (Option.some.inj h).symm
        subst hq
        refine ⟨?_, fun r hr => absurd hr (by omega)⟩
        rw [List.isEmpty_iff.mp hpat]
        simp [occursAt, List.isPrefixOf]
      · intro ⟨h1, h2⟩
        cases q with
        | zero => rfl
        | succ q' =>
          have h3 := h2 0 (by omega)
          rw [List.isEmpty_iff.mp hpat] at h3
          simp [occursAt, List.isPrefixOf] at h3
    · rw [if_neg hpat]
      have hp : pat ≠ [] := fun hh => hpat (by simp [hh])
      constructor
      · intro h; exact Option.noConfusion h
      · intro ⟨h1, _⟩
        rw [occursAt_nil_of_ne hp] at h1
        exact Bool.noConfusion h1
  | cons c rest ih =>
    unfold findSubstr
    by_cases hpre : pat.isPrefixOf (c :: rest) = true
    · rw [if_pos hpre]
      constructor
      · intro h
        have hq : q = 0 := (Option.some.inj h).symm
        subst hq
        refine ⟨by rwa [occursAt_zero], fun r hr => absurd hr (by omega)⟩
      · intro ⟨h1, h2⟩
        cases q with
        | zero => rfl
        | succ q' =>
          have h3 := h2 0 (by omega)
          rw [occursAt_zero] at h3
          rw [h3] at hpre
          exact Bool.noConfusion hpre
    · rw [if_neg hpre]
      constructor
      · intro h
        obtain ⟨q', hq', hmap⟩ := Option.map_eq_some'.mp h
        obtain ⟨h1, h2⟩ := ih.mp hq'
        subst hmap
        refine ⟨by rwa [occursAt_cons_succ], ?_⟩
        intro r hr
        cases r with
        | zero =>
          rw [occursAt_zero]
          exact Bool.eq_false_iff.mpr (fun hh => hpre hh)
        | succ r' =>
          rw [occursAt_cons_succ]
          exact h2 r' (by omega)
      · intro ⟨h1, h2⟩
        cases q with
        | zero =>
          rw [occursAt_zero] at h1
          rw [h1] at hpre
          exact absurd rfl hpre
        | succ q' =>
          rw [Option.map_eq_some']
          refine ⟨q', ih.mpr ⟨by rwa [occursAt_cons_succ] at h1, ?_⟩, rfl⟩
          intro r hr
          have h3 := h2 (r + 1) (by omega)
          rwa [occursAt_cons_succ] at h3

theorem occursAt_drop_add {pat s : List Char} {pos j : Nat} :
    occursAt pat (s.drop pos) j = occursAt pat s (pos + j) := by
  unfold occursAt
  rw [List.drop_drop]

theorem findFrom_eq_some_iff {pat s : List Char} {pos q : Nat} :
    findFrom pat s pos = some q ↔
      pos ≤ q ∧ occursAt pat s q = true ∧
        ∀ r, pos ≤ r → r < q → occursAt pat s r = false := by
  unfold findFrom
  constructor
  · intro h
    obtain ⟨q', hq', hmap⟩ := Option.map_eq_some'.mp h
    obtain ⟨h1, h2⟩ := findSubstr_eq_some_iff.mp hq'
    subst hmap
    rw [occursAt_drop_add] at h1
    refine ⟨by omega, by rwa [Nat.add_comm pos q'] at h1, ?_⟩
    intro r hr1 hr2
    have h3 := h2 (r - pos) (by omega)
    rwa [occursAt_drop_add, Nat.add_sub_cancel' hr1] at h3
  · intro ⟨h0, h1, h2⟩
    rw [Option.map_eq_some']
    refine ⟨q - pos, findSubstr_eq_some_iff.mpr ⟨?_, ?_⟩, by omega⟩
    · rwa [occursAt_drop_add, Nat.add_sub_cancel' h0]
    · intro r hr
      rw [occursAt_drop_add]
      exact h2 (pos + r) (by omega) (by omega)

theorem findFrom_eq_none_iff {pat s : List Char} {pos : Nat} :
    findFrom pat s pos = none ↔
      ∀ r, pos ≤ r → occursAt pat s r = false := by
  unfold findFrom
  rw [Option.map_eq_none', findSubstr_eq_none_iff]
  constructor
  · intro h r hr
    have h1 := h (r - pos)
    rwa [occursAt_drop_add, Nat.add_sub_cancel' hr] at h1
  · intro h r
    rw [occursAt_drop_add]
    exact h (pos + r) (by omega)

theorem findFrom_bounds {pat s : List Char} {pos q : Nat} (hpat : pat ≠ [])
    (h : findFrom pat s pos = some q) :
    pos ≤ q ∧ q + pat.length ≤ s.length := by
  obtain ⟨h0, h1, _⟩ := findFrom_eq_some_iff.mp h
  exact ⟨h0, occursAt_length hpat h1⟩

theorem occursAt_false_of_le {pat s : List Char} {r : Nat} (hpat : pat ≠ [])
    (h : s.length ≤ r) : occursAt pat s r = false := by
  unfold occursAt
  rw [List.drop_eq_nil_of_le h]
  cases pat with
  | nil => exact absurd rfl hpat
  | cons c cs => simp [List.isPrefixOf]

theorem findFrom_none_of_lt {pat s : List Char} {pos : Nat} (hpat : pat ≠ [])
    (h : s.length < pos) : findFrom pat s pos = none := by
  rw [findFrom_eq_none_iff]
  intro r hr
  exact occursAt_false_of_le hpat (by omega)

/-! ## Fuel adequacy for the three scan loops -/

theorem kwLoopAdvF_stuck {kw repl : List Char} {adv : Nat} {s : List Char}
    {pos : Nat} (h : s.length < pos) (f : Nat) :
    kwLoopAdvF f kw repl adv s pos = s := by
  cases f with
  | zero => rfl
  | succ f =>
    simp only [kwLoopAdvF]
    by_cases hkw : kw.isEmpty = true
    · rw [if_pos hkw]
    · rw [if_neg hkw]
      have hk : kw ≠ [] := fun hh => hkw (by simp [hh])
      rw [findFrom_none_of_lt hk h]

theorem kwLoopAdvF_congr {kw repl : List Char} {adv : Nat} (hadv : 1 ≤ adv) :
    ∀ f g s pos, s.length + 1 - pos ≤ f → s.length + 1 - pos ≤ g →
      kwLoopAdvF f kw repl adv s pos = kwLoopAdvF g kw repl adv s pos := by
  intro f
  induction f with
  | zero =>
    intro g s pos hf hg
    have h : s.length < pos := by omega
    rw [kwLoopAdvF_stuck h, kwLoopAdvF_stuck h]
  | succ f ih =>
    intro g s pos hf hg
    by_cases hpos : s.length < pos
    · rw [kwLoopAdvF_stuck hpos, kwLoopAdvF_stuck hpos]
    · have hpos' : pos ≤ s.length := by omega
      cases g with
      | zero => omega
      | succ g =>
        simp only [kwLoopAdvF]
        by_cases hkw : kw.isEmpty = true
        · rw [if_pos hkw, if_pos hkw]
        · rw [if_neg hkw, if_neg hkw]
          have hk : kw ≠ [] := fun hh => hkw (by simp [hh])
          have hk1 : 1 ≤ kw.length := by
            cases kw with
            | nil => exact absurd rfl hk
            | cons c cs => simp
          cases hff : findFrom kw s pos with
          | none => rfl
          | some p =>
            dsimp only
            obtain ⟨hp1, hp2⟩ := findFrom_bounds hk hff
            have hlen : (s.take p ++ repl ++ s.drop (p + kw.length)).length
                = p + repl.length + (s.length - (p + kw.length)) := by
              simp [List.length_append, List.length_take, List.length_drop]
              omega
            by_cases hok : (((p == 0) || !(isAlnum (s.getD (p - 1) ' ')))
                && ((p + kw.length == s.length)
                    || !(isAlnum (s.getD (p + kw.length) ' ')))) = true
            · rw [if_pos hok, if_pos hok]
              exact ih g _ _ (by rw [hlen]; omega) (by rw [hlen]; omega)
            · rw [if_neg hok, if_neg hok]
              exact ih g _ _ (by omega) (by omega)

theorem kwLoopAdv_unfold {kw repl : List Char} {adv : Nat} (hadv : 1 ≤ adv)
    (s : List Char) (pos : Nat) :
    kwLoopAdv kw repl adv s pos =
      if kw.isEmpty then s else
      match findFrom kw s pos with
      | none => s
      | some p =>
        if ((p == 0) || !(isAlnum (s.getD (p - 1) ' ')))
            && ((p + kw.length == s.length)
                || !(isAlnum (s.getD (p + kw.length) ' '))) then
          kwLoopAdv kw repl adv
            (s.take p ++ repl ++ s.drop (p + kw.length)) (p + repl.length)
        else
          kwLoopAdv kw repl adv s (p + adv) := by
  unfold kwLoopAdv
  by_cases hkw : kw.isEmpty = true
  · rw [if_pos hkw]
    cases hm : s.length + 1 - pos with
    | zero => rfl
    | succ m => simp only [kwLoopAdvF]; rw [if_pos hkw]
  · rw [if_neg hkw]
    have hk : kw ≠ [] := fun hh => hkw (by simp [hh])
    have hk1 : 1 ≤ kw.length := by
      cases kw with
      | nil => exact absurd rfl hk
      | cons c cs => simp
    by_cases hpos : s.length < pos
    · rw [kwLoopAdvF_stuck hpos, findFrom_none_of_lt hk hpos]
    · have hm : s.length + 1 - pos = (s.length - pos) + 1 := by omega
      rw [hm]
      simp only [kwLoopAdvF]
      rw [if_neg hkw]
      cases hff : findFrom kw s pos with
      | none => rfl
      | some p =>
        dsimp only
        obtain ⟨hp1, hp2⟩ := findFrom_bounds hk hff
        have hlen : (s.take p ++ repl ++ s.drop (p + kw.length)).length
            = p + repl.length + (s.length - (p + kw.length)) := by
          simp [List.length_append, List.length_take, List.length_drop]
          omega
        by_cases hok : (((p == 0) || !(isAlnum (s.getD (p - 1) ' ')))
            && ((p + kw.length == s.length)
                || !(isAlnum (s.getD (p + kw.length) ' ')))) = true
        · rw [if_pos hok, if_pos hok]
          exact kwLoopAdvF_congr hadv _ _ _ _ (by rw [hlen]; omega)
            (le_refl _)
        · rw [if_neg hok, if_neg hok]
          exact kwLoopAdvF_congr hadv _ _ _ _ (by omega) (by omega)

theorem strLoopF_stuck {s : List Char} {pos : Nat} (h : s.length < pos)
    (f : Nat) : strLoopF f s pos = s := by
  cases f with
  | zero => rfl
  | succ f =>
    simp only [strLoopF]
    rw [findFrom_none_of_lt (by simp) h]

theorem strLoopF_congr :
    ∀ f g s pos, s.length + 1 - pos ≤ f → s.length + 1 - pos ≤ g →
      strLoopF f s pos = strLoopF g s pos := by
  intro f
  induction f with
  | zero =>
    intro g s pos hf hg
    have h : s.length < pos := by omega
    rw [strLoopF_stuck h, strLoopF_stuck h]
  | succ f ih =>
    intro g s pos hf hg
    by_cases hpos : s.length < pos
    · rw [strLoopF_stuck hpos, strLoopF_stuck hpos]
    · cases g with
      | zero => omega
      | succ g =>
        simp only [strLoopF]
        cases hp : findFrom ['"'] s pos with
        | none => rfl
        | some p =>
          dsimp only
          obtain ⟨hp1, hp2⟩ := findFrom_bounds (by simp) hp
          cases he : findFrom ['"'] s (p + 1) with
          | none => rfl
          | some e =>
            dsimp only
            obtain ⟨he1, he2⟩ := findFrom_bounds (by simp) he
            have hlen : (s.take p ++ strRepl s p e ++ s.drop (e + 1)).length
                = p + (strRepl s p e).length + (s.length - (e + 1)) := by
              simp [List.length_append, List.length_take, List.length_drop]
              omega
            exact ih g _ _ (by rw [hlen]; omega) (by rw [hlen]; omega)

theorem strLoop_unfold (s : List Char) (pos : Nat) :
    strLoop s pos =
      match findFrom ['"'] s pos with
      | none => s
      | some p =>
        match findFrom ['"'] s (p + 1) with
        | none => s
        | some e =>
          strLoop (s.take p ++ strRepl s p e ++ s.drop (e + 1))
            (p + (strRepl s p e).length) := by
  unfold strLoop
  by_cases hpos : s.length < pos
  · rw [strLoopF_stuck hpos, findFrom_none_of_lt (by simp) hpos]
  · have hm : s.length + 1 - pos = (s.length - pos) + 1 := by omega
    rw [hm]
    simp only [strLoopF]
    cases hp : findFrom ['"'] s pos with
    | none => rfl
    | some p =>
      dsimp only
      obtain ⟨hp1, hp2⟩ := findFrom_bounds (by simp) hp
      cases he : findFrom ['"'] s (p + 1) with
      | none => rfl
      | some e =>
        dsimp only
        obtain ⟨he1, he2⟩ := findFrom_bounds (by simp) he
        have hlen : (s.take p ++ strRepl s p e ++ s.drop (e + 1)).length
            = p + (strRepl s p e).length + (s.length - (e + 1)) := by
          simp [List.length_append, List.length_take, List.length_drop]
          omega
        exact strLoopF_congr _ _ _ _ (by rw [hlen]; omega) (le_refl _)

theorem comEnd_bounds {s : List Char} {pos p : Nat}
    (h : findFrom "//".data s pos = some p) :
    p < comEnd s p ∧ comEnd s p ≤ s.length := by
  obtain ⟨_, hp2⟩ := findFrom_bounds (by simp) h
  have hocc := (findFrom_eq_some_iff.mp h).2.1
  have hsl : ("//".data).length = 2 := by rfl
  have hchar : s[p]? = some '/' := by
    have h0 := occursAt_getElem hocc (show 0 < ("//".data).length by rw [hsl]; omega)
    simpa using h0
  rw [hsl] at hp2
  unfold comEnd
  cases hn : findFrom ['\n'] s p with
  | none => dsimp only; exact ⟨by omega, le_refl _⟩
  | some e =>
    dsimp only
    obtain ⟨hn1, hn2⟩ := findFrom_bounds (by simp) hn
    have hne : s[e]? = some '\n' :=
      occursAt_singleton.mp (findFrom_eq_some_iff.mp hn).2.1
    have hpe : p ≠ e := by
      intro hh
      rw [hh, hne] at hchar
      exact absurd (Option.some.inj hchar) (by decide)
    simp only [List.length_cons, List.length_nil] at hn2
    exact ⟨by omega, by omega⟩

theorem comLoopF_stuck {s : List Char} {pos : Nat} (h : s.length < pos)
    (f : Nat) : comLoopF f s pos = s := by
  cases f with
  | zero => rfl
  | succ f =>
    simp only [comLoopF]
    rw [findFrom_none_of_lt (by simp) h]

theorem comLoopF_congr :
    ∀ f g s pos, s.length + 1 - pos ≤ f → s.length + 1 - pos ≤ g →
      comLoopF f s pos = comLoopF g s pos := by
  intro f
  induction f with
  | zero =>
    intro g s pos hf hg
    have h : s.length < pos := by omega
    rw [comLoopF_stuck h, comLoopF_stuck h]
  | succ f ih =>
    intro g s pos hf hg
    by_cases hpos : s.length < pos
    · rw [comLoopF_stuck hpos, comLoopF_stuck hpos]
    · cases g with
      | zero => omega
      | succ g =>
        simp only [comLoopF]
        cases hp : findFrom "//".data s pos with
        | none => rfl
        | some p =>
          dsimp only
          obtain ⟨hp1, hp2⟩ := findFrom_bounds (by simp) hp
          obtain ⟨hc1, hc2⟩ := comEnd_bounds hp
          have hlen :
              (s.take p ++ comRepl s p (comEnd s p) ++ s.drop (comEnd s p)).length
                = p + (comRepl s p (comEnd s p)).length
                    + (s.length - comEnd s p) := by
            simp [List.length_append, List.length_take, List.length_drop]
            omega
          exact ih g _ _ (by rw [hlen]; omega) (by rw [hlen]; omega)

theorem comLoop_unfold (s : List Char) (pos : Nat) :
    comLoop s pos =
      match findFrom "//".data s pos with
      | none => s
      | some p =>
        comLoop (s.take p ++ comRepl s p (comEnd s p) ++ s.drop (comEnd s p))
          (p + (comRepl s p (comEnd s p)).length) := by
  unfold comLoop
  by_cases hpos : s.length < pos
  · rw [comLoopF_stuck hpos, findFrom_none_of_lt (by simp) hpos]
  · have hm : s.length + 1 - pos = (s.length - pos) + 1 := by omega
    rw [hm]
    simp only [comLoopF]
    cases hp : findFrom "//".data s pos with
    | none => rfl
    | some p =>
      dsimp only
      obtain ⟨hp1, hp2⟩ := findFrom_bounds (by simp) hp
      obtain ⟨hc1, hc2⟩ := comEnd_bounds hp
      have hlen :
          (s.take p ++ comRepl s p (comEnd s p) ++ s.drop (comEnd s p)).length
            = p + (comRepl s p (comEnd s p)).length + (s.length - comEnd s p) := by
        simp [List.length_append, List.length_take, List.length_drop]
        omega
      exact comLoopF_congr _ _ _ _ (by rw [hlen]; omega) (le_refl _)

/-! ## Suffix-style reformulation of the keyword loop

`kwLoopAdv` mutates one growing string and tracks an absolute cursor.
`kwScanAdv` is the same computation organised around the unscanned suffix:
the already-emitted prefix is gone, and `prev` is the character standing
immediately before the suffix in the full working string (`none` at the
very start).  `kwLoopAdv_glue` proves the two agree. -/

theorem findSubstr_bounds {pat s : List Char} {q : Nat} (hpat : pat ≠ [])
    (h : findSubstr pat s = some q) : q + pat.length ≤ s.length :=
  occursAt_length hpat (findSubstr_eq_some_iff.mp h).1

/-- The word-boundary check on the left of a candidate at index `q` of the
unscanned suffix `s`, with `prev` the character just before `s`:
`pos == 0 || !isalnum(highlighted[pos-1])` (src/5_2.cpp:61). -/
def boundaryOkBefore (prev : Option Char) (s : List Char) (q : Nat) : Bool :=
  match (if q = 0 then prev else s[q - 1]?) with
  | none => true
  | some c => !(isAlnum c)

/-- The word-boundary check on the right of a candidate at index `q`:
`pos + len == length || !isalnum(highlighted[pos+len])` (src/5_2.cpp:62). -/
def boundaryOkAfter (kw s : List Char) (q : Nat) : Bool :=
  match s[q + kw.length]? with
  | none => true
  | some c => !(isAlnum c)

/-- Suffix-style keyword scan, fuel-indexed.  Mirrors `kwLoopAdvF` branch
for branch. -/
def kwScanAdvF (fuel : Nat) (kw repl : List Char) (adv : Nat)
    (prev : Option Char) (s : List Char) : List Char :=
  match fuel with
  | 0 => s
  | fuel + 1 =>
    if kw.isEmpty then s else
    match findSubstr kw s with
    | none => s
    | some q =>
      if boundaryOkBefore prev s q && boundaryOkAfter kw s q then
        s.take q ++ repl
          ++ kwScanAdvF fuel kw repl adv (lastOr (s.take q ++ repl) prev)
              (s.drop (q + kw.length))
      else
        s.take (q + adv)
          ++ kwScanAdvF fuel kw repl adv (lastOr (s.take (q + adv)) prev)
              (s.drop (q + adv))

/-- Suffix-style keyword scan with sufficient fuel. -/
def kwScanAdv (kw repl : List Char) (adv : Nat) (prev : Option Char)
    (s : List Char) : List Char :=
  kwScanAdvF (s.length + 1) kw repl adv prev s

theorem kwScanAdvF_congr {kw repl : List Char} {adv : Nat} (hadv : 1 ≤ adv) :
    ∀ f g prev s, s.length < f → s.length < g →
      kwScanAdvF f kw repl adv prev s = kwScanAdvF g kw repl adv prev s := by
  intro f
  induction f with
  | zero => intro g prev s hf hg; omega
  | succ f ih =>
    intro g prev s hf hg
    cases g with
    | zero => omega
    | succ g =>
      simp only [kwScanAdvF]
      by_cases hkw : kw.isEmpty = true
      · rw [if_pos hkw, if_pos hkw]
      · rw [if_neg hkw, if_neg hkw]
        have hk : kw ≠ [] := fun hh => hkw (by simp [hh])
        have hk1 : 1 ≤ kw.length := by
          cases kw with
          | nil => exact absurd rfl hk
          | cons c cs => simp
        cases hq : findSubstr kw s with
        | none => rfl
        | some q =>
          dsimp only
          have hb := findSubstr_bounds hk hq
          by_cases hok : (boundaryOkBefore prev s q
              && boundaryOkAfter kw s q) = true
          · rw [if_pos hok, if_pos hok]
            rw [ih g _ _ (by simp [List.length_drop]; omega)
              (by simp [List.length_drop]; omega)]
          · rw [if_neg hok, if_neg hok]
            rw [ih g _ _ (by simp [List.length_drop]; omega)
              (by simp [List.length_drop]; omega)]

theorem kwScanAdvF_toScan {kw repl : List Char} {adv : Nat} (hadv : 1 ≤ adv)
    {f : Nat} {prev : Option Char} {s : List Char} (h : s.length < f) :
    kwScanAdvF f kw repl adv prev s = kwScanAdv kw repl adv prev s :=
  kwScanAdvF_congr hadv f (s.length + 1) prev s h (by omega)

theorem kwScanAdv_unfold {kw repl : List Char} {adv : Nat} (hadv : 1 ≤ adv)
    (prev : Option Char) (s : List Char) :
    kwScanAdv kw repl adv prev s =
      if kw.isEmpty then s else
      match findSubstr kw s with
      | none => s
      | some q =>
        if boundaryOkBefore prev s q && boundaryOkAfter kw s q then
          s.take q ++ repl
            ++ kwScanAdv kw repl adv (lastOr (s.take q ++ repl) prev)
                (s.drop (q + kw.length))
        else
          s.take (q + adv)
            ++ kwScanAdv kw repl adv (lastOr (s.take (q + adv)) prev)
                (s.drop (q + adv)) := by
  have hstep : kwScanAdv kw repl adv prev s
      = kwScanAdvF (s.length + 1) kw repl adv prev s := rfl
  rw [hstep]
  simp only [kwScanAdvF]
  by_cases hkw : kw.isEmpty = true
  · rw [if_pos hkw, if_pos hkw]
  · rw [if_neg hkw, if_neg hkw]
    have hk : kw ≠ [] := fun hh => hkw (by simp [hh])
    have hk1 : 1 ≤ kw.length := by
      cases kw with
      | nil => exact absurd rfl hk
      | cons c cs => simp
    cases hq : findSubstr kw s with
    | none => rfl
    | some q =>
      dsimp only
      have hb := findSubstr_bounds hk hq
      by_cases hok : (boundaryOkBefore prev s q
          && boundaryOkAfter kw s q) = true
      · rw [if_pos hok, if_pos hok]
        rw [kwScanAdvF_toScan hadv (by simp [List.length_drop]; omega)]
      · rw [if_neg hok, if_neg hok]
        rw [kwScanAdvF_toScan hadv (by simp [List.length_drop]; omega)]

theorem kwScanAdv_nil {kw repl : List Char} {adv : Nat}
    {prev : Option Char} : kwScanAdv kw repl adv prev [] = [] := by
  unfold kwScanAdv kwScanAdvF
  by_cases hkw : kw.isEmpty = true
  · rw [if_pos hkw]
  · rw [if_neg hkw]
    have hk : kw ≠ [] := fun hh => hkw (by simp [hh])
    unfold findSubstr
    rw [if_neg (fun hh => hkw (by simpa using hh))]

theorem lastOr_eq_or {l : List Char} {d : Option Char} :
    lastOr l d = l.getLast?.or d := by
  unfold lastOr
  cases l.getLast? <;> rfl

theorem getLast?_append_lastOr {a l : List Char} :
    (a ++ l).getLast? = lastOr l a.getLast? := by
  rw [List.getLast?_append, lastOr_eq_or]

theorem getElem?_append_add {a t : List Char} {i : Nat} :
    (a ++ t)[a.length + i]? = t[i]? := by
  rw [List.getElem?_append]
  simp

theorem findFrom_none_of_le {pat s : List Char} {pos : Nat} (hpat : pat ≠ [])
    (h : s.length ≤ pos) : findFrom pat s pos = none := by
  rw [findFrom_eq_none_iff]
  intro r hr
  exact occursAt_false_of_le hpat (by omega)

theorem findFrom_append_left {pat a t : List Char} :
    findFrom pat (a ++ t) a.length = (findSubstr pat t).map (· + a.length) := by
  unfold findFrom
  rw [List.drop_left]

theorem kwLoopAdv_stuck {kw repl : List Char} {adv : Nat} {s : List Char}
    {pos : Nat} (h : s.length < pos) : kwLoopAdv kw repl adv s pos = s := by
  unfold kwLoopAdv
  rw [show s.length + 1 - pos = 0 by omega]
  rfl

theorem boundary_glue_before {a t kw : List Char} {q : Nat} (hk : kw ≠ [])
    (hocc : occursAt kw t q = true) :
    ((a.length + q == 0) || !(isAlnum ((a ++ t).getD (a.length + q - 1) ' ')))
      = boundaryOkBefore a.getLast? t q := by
  have hk1 : 1 ≤ kw.length := by
    cases kw with
    | nil => exact absurd rfl hk
    | cons c cs => simp
  have hbnd : q + kw.length ≤ t.length := occursAt_length hk hocc
  by_cases hq0 : q = 0
  · subst hq0
    cases ha : a.getLast? with
    | none =>
      have hanil : a = [] := List.getLast?_eq_none_iff.mp ha
      subst hanil
      simp [boundaryOkBefore]
    | some v =>
      have hane : a ≠ [] := by
        intro hh
        rw [hh] at ha
        exact Option.noConfusion ha
      have halen : 1 ≤ a.length := by
        cases a with
        | nil => exact absurd rfl hane
        | cons x xs => simp
      have hbeq : (a.length + 0 == 0) = false := by
        simp only [beq_eq_false_iff_ne, ne_eq]
        omega
      rw [hbeq]
      have hidx : (a ++ t).getD (a.length + 0 - 1) ' ' = v := by
        rw [List.getD_eq_getElem?_getD]
        rw [show a.length + 0 - 1 = a.length - 1 from by omega]
        rw [List.getElem?_append, if_pos (by omega)]
        rw [← List.getLast?_eq_getElem?, ha]
        rfl
      rw [hidx]
      unfold boundaryOkBefore
      rw [if_pos rfl]
      simp
  · have hbeq : (a.length + q == 0) = false := by
      simp only [beq_eq_false_iff_ne, ne_eq]
      omega
    rw [hbeq]
    have hq1 : q - 1 < t.length := by omega
    have hidx : (a ++ t).getD (a.length + q - 1) ' ' = t.getD (q - 1) ' ' := by
      rw [List.getD_eq_getElem?_getD, List.getD_eq_getElem?_getD]
      rw [show a.length + q - 1 = a.length + (q - 1) by omega]
      rw [getElem?_append_add]
    rw [hidx]
    unfold boundaryOkBefore
    rw [if_neg hq0]
    rw [List.getElem?_eq_getElem hq1]
    rw [List.getD_eq_getElem?_getD, List.getElem?_eq_getElem hq1]
    simp

theorem boundary_glue_after {a t kw : List Char} {q : Nat} (hk : kw ≠ [])
    (hocc : occursAt kw t q = true) :
    ((a.length + q + kw.length == (a ++ t).length)
        || !(isAlnum ((a ++ t).getD (a.length + q + kw.length) ' ')))
      = boundaryOkAfter kw t q := by
  have hbnd : q + kw.length ≤ t.length := occursAt_length hk hocc
  unfold boundaryOkAfter
  by_cases hend : q + kw.length = t.length
  · have hbeq : (a.length + q + kw.length == (a ++ t).length) = true := by
      simp [List.length_append]
      omega
    rw [hbeq]
    rw [List.getElem?_eq_none (by omega)]
    simp
  · have hlt : q + kw.length < t.length := by omega
    have hbeq : (a.length + q + kw.length == (a ++ t).length) = false := by
      simp [List.length_append]
      omega
    rw [hbeq]
    have hidx : (a ++ t).getD (a.length + q + kw.length) ' '
        = t.getD (q + kw.length) ' ' := by
      rw [List.getD_eq_getElem?_getD, List.getD_eq_getElem?_getD]
      rw [show a.length + q + kw.length = a.length + (q + kw.length) by omega]
      rw [getElem?_append_add]
    rw [hidx]
    rw [List.getElem?_eq_getElem hlt]
    rw [List.getD_eq_getElem?_getD, List.getElem?_eq_getElem hlt]
    simp

theorem kwLoopAdv_glue {kw repl : List Char} {adv : Nat} (hadv : 1 ≤ adv) :
    ∀ n t a, t.length ≤ n →
      kwLoopAdv kw repl adv (a ++ t) a.length
        = a ++ kwScanAdv kw repl adv a.getLast? t := by
  intro n
  induction n with
  | zero =>
    intro t a ht
    have htn : t = [] := List.length_eq_zero.mp (by omega)
    subst htn
    rw [kwScanAdv_nil, List.append_nil]
    rw [kwLoopAdv_unfold hadv]
    by_cases hkw : kw.isEmpty = true
    · rw [if_pos hkw]
    · rw [if_neg hkw]
      have hk : kw ≠ [] := fun hh => hkw (by simp [hh])
      rw [findFrom_none_of_le hk (le_refl _)]
  | succ n ih =>
    intro t a ht
    rw [kwLoopAdv_unfold hadv, kwScanAdv_unfold hadv]
    by_cases hkw : kw.isEmpty = true
    · rw [if_pos hkw, if_pos hkw]
    · rw [if_neg hkw, if_neg hkw]
      have hk : kw ≠ [] := fun hh => hkw (by simp [hh])
      have hk1 : 1 ≤ kw.length := by
        cases kw with
        | nil => exact absurd rfl hk
        | cons c cs => simp
      rw [findFrom_append_left]
      cases hq : findSubstr kw t with
      | none => rfl
      | some q =>
        dsimp only [Option.map]
        have hocc : occursAt kw t q = true := (findSubstr_eq_some_iff.mp hq).1
        have hbnd : q + kw.length ≤ t.length := occursAt_length hk hocc
        have hcomm : q + a.length = a.length + q := Nat.add_comm q a.length
        rw [hcomm]
        rw [boundary_glue_before hk hocc, boundary_glue_after hk hocc]
        by_cases hok : (boundaryOkBefore a.getLast? t q
            && boundaryOkAfter kw t q) = true
        · rw [if_pos hok, if_pos hok]
          rw [List.take_append]
          rw [show a.length + q + kw.length = a.length + (q + kw.length)
            from by omega]
          rw [List.drop_append]
          have hlen' : a.length + q + repl.length
              = ((a ++ t.take q) ++ repl).length := by
            simp [List.length_append, List.length_take]
            omega
          rw [hlen']
          rw [ih (t.drop (q + kw.length)) ((a ++ t.take q) ++ repl)
            (by simp [List.length_drop]; omega)]
          have hlast : ((a ++ t.take q) ++ repl).getLast?
              = lastOr (t.take q ++ repl) a.getLast? := by
            rw [List.append_assoc, getLast?_append_lastOr]
          rw [hlast]
          simp [List.append_assoc]
        · rw [if_neg hok, if_neg hok]
          by_cases hover : q + adv ≤ t.length
          · have hsplit : a ++ t
                = (a ++ t.take (q + adv)) ++ t.drop (q + adv) := by
              rw [List.append_assoc, List.take_append_drop]
            have hlen' : a.length + q + adv
                = (a ++ t.take (q + adv)).length := by
              simp [List.length_append, List.length_take]
              omega
            rw [hsplit, hlen']
            rw [ih (t.drop (q + adv)) (a ++ t.take (q + adv))
              (by simp [List.length_drop]; omega)]
            have hlast : (a ++ t.take (q + adv)).getLast?
                = lastOr (t.take (q + adv)) a.getLast? :=
              getLast?_append_lastOr
            rw [hlast]
            simp [List.append_assoc]
          · have hstuck : kwLoopAdv kw repl adv (a ++ t)
                (a.length + q + adv) = a ++ t :=
              kwLoopAdv_stuck (by simp [List.length_append]; omega)
            rw [hstuck]
            have hdrop : t.drop (q + adv) = [] :=
              List.drop_eq_nil_of_le (by omega)
            have htake : t.take (q + adv) = t :=
              List.take_of_length_le (by omega)
            rw [hdrop, htake, kwScanAdv_nil, List.append_nil]

/-- The cursor-style loop started at position 0 equals the suffix-style
scan started with no preceding character. -/
theorem kwLoopAdv_eq_scan {kw repl : List Char} {adv : Nat} (hadv : 1 ≤ adv)
    (s : List Char) :
    kwLoopAdv kw repl adv s 0 = kwScanAdv kw repl adv none s := by
  have h := @kwLoopAdv_glue kw repl adv hadv s.length s [] (le_refl _)
  simpa using h

theorem findFrom_append_shift {pat a t : List Char} {q : Nat} :
    findFrom pat (a ++ t) (a.length + q) = (findFrom pat t q).map (· + a.length) := by
  unfold findFrom
  rw [List.drop_append]
  cases findSubstr pat (t.drop q) with
  | none => rfl
  | some x =>
    simp only [Option.map_some']
    rw [Option.some.injEq]
    omega

theorem comEnd_append_shift {a t : List Char} {q : Nat} :
    comEnd (a ++ t) (a.length + q) = a.length + comEnd t q := by
  unfold comEnd
  rw [findFrom_append_shift]
  cases findFrom ['\n'] t q with
  | none => simp [List.length_append]
  | some e => simp; omega

theorem extract_append_shift {a t : List Char} {q n : Nat} :
    extract (a ++ t) (a.length + q) n = extract t q n := by
  unfold extract
  rw [List.drop_append]

theorem comRepl_append_shift {a t : List Char} {q e : Nat} :
    comRepl (a ++ t) (a.length + q) (a.length + e) = comRepl t q e := by
  unfold comRepl
  rw [show a.length + e - (a.length + q) = e - q by omega, extract_append_shift]

theorem comLoop_glue :
    ∀ n t a, t.length ≤ n → comLoop (a ++ t) a.length = a ++ comLoop t 0 := by
  intro n
  induction n with
  | zero =>
    intro t a ht
    have htn : t = [] := List.length_eq_zero.mp (by omega)
    subst htn
    have h1 : comLoop ([] : List Char) 0 = [] := rfl
    rw [List.append_nil, h1, List.append_nil]
    rw [comLoop_unfold]
    rw [findFrom_none_of_le (by simp) (le_refl _)]
  | succ n ih =>
    intro t a ht
    rw [comLoop_unfold (a ++ t), comLoop_unfold t]
    rw [show (a.length : Nat) = a.length + 0 by omega, findFrom_append_shift]
    cases hq : findFrom "//".data t 0 with
    | none => rfl
    | some q =>
      dsimp only [Option.map]
      obtain ⟨hq0, hq2⟩ := findFrom_bounds (by simp) hq
      have hcomm : q + a.length = a.length + q := Nat.add_comm q a.length
      rw [hcomm]
      rw [comEnd_append_shift, comRepl_append_shift]
      obtain ⟨hc1, hc2⟩ := comEnd_bounds hq
      rw [List.take_append, List.drop_append]
      have hA : a.length + q + (comRepl t q (comEnd t q)).length
          = ((a ++ t.take q) ++ comRepl t q (comEnd t q)).length := by
        simp [List.length_append, List.length_take]
        omega
      rw [hA]
      have hassoc : a ++ t.take q ++ comRepl t q (comEnd t q)
            ++ t.drop (comEnd t q)
          = ((a ++ t.take q) ++ comRepl t q (comEnd t q))
            ++ t.drop (comEnd t q) := by
        simp [List.append_assoc]
      rw [hassoc]
      rw [ih (t.drop (comEnd t q)) ((a ++ t.take q) ++ comRepl t q (comEnd t q))
        (by simp [List.length_drop]; omega)]
      have hB : q + (comRepl t q (comEnd t q)).length
          = (t.take q ++ comRepl t q (comEnd t q)).length := by
        simp [List.length_append, List.length_take]
        omega
      rw [hB]
      have hassoc2 : t.take q ++ comRepl t q (comEnd t q)
            ++ t.drop (comEnd t q)
          = (t.take q ++ comRepl t q (comEnd t q)) ++ t.drop (comEnd t q) := by
        simp [List.append_assoc]
      rw [hassoc2]
      rw [ih (t.drop (comEnd t q)) (t.take q ++ comRepl t q (comEnd t q))
        (by simp [List.length_drop]; omega)]
      simp [List.append_assoc]

theorem strRepl_append_shift {a t : List Char} {p e : Nat} :
    strRepl (a ++ t) (a.length + p) (a.length + e) = strRepl t p e := by
  unfold strRepl
  rw [show a.length + e - (a.length + p) = e - p by omega, extract_append_shift]

theorem strLoop_glue :
    ∀ n t a, t.length ≤ n → strLoop (a ++ t) a.length = a ++ strLoop t 0 := by
  intro n
  induction n with
  | zero =>
    intro t a ht
    have htn : t = [] := List.length_eq_zero.mp (by omega)
    subst htn
    have h1 : strLoop ([] : List Char) 0 = [] := rfl
    rw [List.append_nil, h1, List.append_nil]
    rw [strLoop_unfold]
    rw [findFrom_none_of_le (by simp) (le_refl _)]
  | succ n ih =>
    intro t a ht
    rw [strLoop_unfold (a ++ t), strLoop_unfold t]
    rw [show (a.length : Nat) = a.length + 0 by omega, findFrom_append_shift]
    cases hp : findFrom ['"'] t 0 with
    | none => rfl
    | some p =>
      dsimp only [Option.map]
      obtain ⟨hp0, hp2⟩ := findFrom_bounds (by simp) hp
      have hcomm : p + a.length = a.length + p := Nat.add_comm p a.length
      rw [hcomm]
      rw [show a.length + p + 1 = a.length + (p + 1) by omega,
        findFrom_append_shift]
      cases he : findFrom ['"'] t (p + 1) with
      | none => rfl
      | some e =>
        dsimp only [Option.map]
        obtain ⟨he0, he2⟩ := findFrom_bounds (by simp) he
        have hcomm2 : e + a.length = a.length + e := Nat.add_comm e a.length
        rw [hcomm2]
        rw [strRepl_append_shift]
        rw [List.take_append]
        rw [show a.length + e + 1 = a.length + (e + 1) by omega,
          List.drop_append]
        have hA : a.length + p + (strRepl t p e).length
            = ((a ++ t.take p) ++ strRepl t p e).length := by
          simp [List.length_append, List.length_take]
          omega
        rw [hA]
        have hassoc : a ++ t.take p ++ strRepl t p e ++ t.drop (e + 1)
            = ((a ++ t.take p) ++ strRepl t p e) ++ t.drop (e + 1) := by
          simp [List.append_assoc]
        rw [hassoc]
        rw [ih (t.drop (e + 1)) ((a ++ t.take p) ++ strRepl t p e)
          (by simp [List.length_drop]; omega)]
        have hB : p + (strRepl t p e).length
            = (t.take p ++ strRepl t p e).length := by
          simp [List.length_append, List.length_take]
          omega
        rw [hB]
        have hassoc2 : t.take p ++ strRepl t p e ++ t.drop (e + 1)
            = (t.take p ++ strRepl t p e) ++ t.drop (e + 1) := by
          simp [List.append_assoc]
        rw [hassoc2]
        rw [ih (t.drop (e + 1)) (t.take p ++ strRepl t p e)
          (by simp [List.length_drop]; omega)]
        simp [List.append_assoc]

/-! ## Claim theorems -/

/-- C1: for every input string, rendering through the outermost handle of
the chain assembled in `main` applies the transformations in the order
Comment first, then StringLiteral, then Keyword, and finally the base
preformatted wrapping: the chain's output equals
`Base.render (Keyword.transform (StringLiteral.transform (Comment.transform input)))`. -/
theorem c1_chain_order (code : List Char) :
    render mainRenderer code
      = plainRender (keywordTransform (stringTransform (commentTransform code))) :=
  rfl

/-- C4: on the spec's example input `"hello \"world\""`,
`StringHighlighter` treats the backslash-escaped quote as a terminator and
wraps `"hello \"` (opening quote through the quote after the backslash) as
one green span; the rest is `world\` plain and `""` as a second span. -/
theorem c4_escaped_quote_terminates :
    stringTransform ("\"hello \\\"world\\\"\"".data)
      = ("<span style='color: green;'>\"hello \\\"</span>world\\"
          ++ "<span style='color: green;'>\"\"</span>").data := by
  decide

set_option maxRecDepth 8000 in
/-- C6: the fixed end-to-end scenario.  On input
`int main() { return 0; // done\n }` the full chain yields exactly one
blue keyword span around `int`, one darkblue span around `return`, one
gray comment span around `// done`, no green string-literal span, and
exactly one preformatted-block wrapping. -/
theorem c6_end_to_end :
    render mainRenderer ("int main() \x7b return 0; // done\n \x7d".data)
      = ("<pre style='font-family: monospace;'>"
          ++ "<span style='color: blue;'>int</span> main() \x7b "
          ++ "<span style='color: darkblue;'>return</span> 0; "
          ++ "<span style='color: gray;'>// done</span>\n \x7d</pre>").data
    ∧ countSubstr ("<span style='color: blue;'>int</span>".data)
        (render mainRenderer ("int main() \x7b return 0; // done\n \x7d".data)) = 1
    ∧ countSubstr ("<span style='color: darkblue;'>return</span>".data)
        (render mainRenderer ("int main() \x7b return 0; // done\n \x7d".data)) = 1
    ∧ countSubstr ("<span style='color: gray;'>// done</span>".data)
        (render mainRenderer ("int main() \x7b return 0; // done\n \x7d".data)) = 1
    ∧ countSubstr ("color: green".data)
        (render mainRenderer ("int main() \x7b return 0; // done\n \x7d".data)) = 0
    ∧ countSubstr ("<pre style='font-family: monospace;'>".data)
        (render mainRenderer ("int main() \x7b return 0; // done\n \x7d".data)) = 1
    ∧ countSubstr ("</pre>".data)
        (render mainRenderer ("int main() \x7b return 0; // done\n \x7d".data)) = 1 := by
  refine ⟨by decide, by decide, by decide, by decide, by decide, by decide, by decide⟩

/-- C7: on the empty input every annotator returns the empty string
unchanged, and the base renderer returns just its fixed wrapping (the
empty code embedded unchanged). -/
theorem c7_empty_input :
    commentTransform [] = []
    ∧ stringTransform [] = []
    ∧ keywordTransform [] = []
    ∧ plainRender [] = "<pre style='font-family: monospace;'></pre>".data
    ∧ render mainRenderer [] = "<pre style='font-family: monospace;'></pre>".data := by
  refine ⟨rfl, rfl, by decide, by decide, by decide⟩

/-- C8: the pre-processing escaper rewrites `<` to `&lt;` and `>` to
`&gt;`, leaves every other character (in particular `&`) unchanged, and
`convertToHTML` feeds the escaped text — not the raw text — to the render
chain. -/
theorem c8_escaper :
    (∀ code : List Char, escapeHTML code = (code.map escapeChar).flatten)
    ∧ escapeChar '<' = "&lt;".data
    ∧ escapeChar '>' = "&gt;".data
    ∧ (∀ c : Char, c ≠ '<' → c ≠ '>' → escapeChar c = [c])
    ∧ escapeChar '&' = ['&']
    ∧ (∀ (r : Renderer) (code : List Char),
        convertToHTML r code = render r (escapeHTML code)) := by
  refine ⟨?_, rfl, rfl, ?_, rfl, fun r code => rfl⟩
  · intro code
    have h : ∀ (acc : List Char),
        code.foldl (fun acc c => acc ++ escapeChar c) acc
          = acc ++ (code.map escapeChar).flatten := by
      induction code with
      | nil => intro acc; simp
      | cons c rest ih =>
        intro acc
        simp only [List.foldl_cons, List.map_cons, List.flatten]
        rw [ih (acc ++ escapeChar c)]
        simp [List.append_assoc]
    have h2 := h []
    simpa [escapeHTML] using h2
  · intro c h1 h2
    unfold escapeChar
    rw [if_neg h1, if_neg h2]

/-- Witness for C8 at concrete inputs. -/
theorem c8_escaper_witness :
    escapeChar 'a' = ['a'] ∧ escapeHTML "<a>&".data = "&lt;a&gt;&".data :=
  ⟨c8_escaper.2.2.2.1 'a' (by decide) (by decide), by decide⟩

/-- C3: when the text contains a `//` marker (first occurrence at `p`), the
comment annotator wraps in a single gray span exactly the characters from
the marker up to but excluding the next newline (`comEnd s p`, the text
end when no newline follows): the wrapped segment contains no newline, the
character at `comEnd s p` (when one exists) is the untouched newline, and
the remaining text from the newline on is passed unchanged to the
continued scan. -/
theorem c3_comment_wrap {s : List Char} {p : Nat}
    (h : findFrom "//".data s 0 = some p) :
    ('\n' ∉ extract s p (comEnd s p - p))
    ∧ (comEnd s p < s.length → s[comEnd s p]? = some '\n')
    ∧ comEnd s p ≤ s.length
    ∧ comLoop s 0
        = s.take p ++ "<span style='color: gray;'>".data
            ++ extract s p (comEnd s p - p) ++ spanClose
            ++ comLoop (s.drop (comEnd s p)) 0 := by
  obtain ⟨hp0, hp2⟩ := findFrom_bounds (by simp) h
  obtain ⟨hc1, hc2⟩ := comEnd_bounds h
  refine ⟨?_, ?_, hc2, ?_⟩
  · intro hmem
    obtain ⟨i, hi, hget⟩ := List.mem_iff_getElem.mp hmem
    have hi2 : i < comEnd s p - p := by
      unfold extract at hi
      simp [List.length_take, List.length_drop] at hi
      omega
    have hchar : s[p + i]? = some '\n' := by
      have h1 : (extract s p (comEnd s p - p))[i]? = some '\n' := by
        rw [List.getElem?_eq_getElem hi, hget]
      unfold extract at h1
      rw [List.getElem?_take, if_pos hi2] at h1
      rwa [List.getElem?_drop] at h1
    have hocc : occursAt ['\n'] s (p + i) = true := occursAt_singleton.mpr hchar
    cases hn : findFrom ['\n'] s p with
    | none =>
      have hnone := findFrom_eq_none_iff.mp hn (p + i) (by omega)
      rw [hnone] at hocc
      exact Bool.noConfusion hocc
    | some e =>
      have hce : comEnd s p = e := by unfold comEnd; rw [hn]
      rw [hce] at hi2
      have hmin := (findFrom_eq_some_iff.mp hn).2.2 (p + i) (by omega) (by omega)
      rw [hmin] at hocc
      exact Bool.noConfusion hocc
  · intro hlt
    cases hn : findFrom ['\n'] s p with
    | none =>
      have hce : comEnd s p = s.length := by unfold comEnd; rw [hn]
      rw [hce] at hlt
      omega
    | some e =>
      have hce : comEnd s p = e := by unfold comEnd; rw [hn]
      rw [hce]
      exact occursAt_singleton.mp (findFrom_eq_some_iff.mp hn).2.1
  · rw [comLoop_unfold, h]
    dsimp only
    have hA : p + (comRepl s p (comEnd s p)).length
        = (s.take p ++ comRepl s p (comEnd s p)).length := by
      simp [List.length_append, List.length_take]
      omega
    rw [hA]
    have hassoc : s.take p ++ comRepl s p (comEnd s p) ++ s.drop (comEnd s p)
        = (s.take p ++ comRepl s p (comEnd s p)) ++ s.drop (comEnd s p) := by
      simp [List.append_assoc]
    rw [hassoc]
    rw [comLoop_glue (s.drop (comEnd s p)).length (s.drop (comEnd s p))
      (s.take p ++ comRepl s p (comEnd s p)) (le_refl _)]
    unfold comRepl
    simp [List.append_assoc]

/-- Witness for C3: `a // b` then a newline then `c`. -/
theorem c3_comment_wrap_witness :
    comLoop ("a // b\nc".data) 0
      = ("a // b\nc".data).take 2 ++ "<span style='color: gray;'>".data
          ++ extract ("a // b\nc".data) 2 (comEnd ("a // b\nc".data) 2 - 2)
          ++ spanClose
          ++ comLoop (("a // b\nc".data).drop (comEnd ("a // b\nc".data) 2)) 0 :=
  (c3_comment_wrap (by decide)).2.2.2

/-! ## The annotators only insert markup (claim C9) -/

theorem sublist_mid {x l y : List Char} : List.Sublist l ((x ++ l) ++ y) :=
  (List.sublist_append_right x l).trans (List.sublist_append_left (x ++ l) y)

theorem decomp_three {s : List Char} {p e : Nat} (hpe : p ≤ e)
    (_he : e ≤ s.length) :
    s = s.take p ++ extract s p (e - p) ++ s.drop e := by
  unfold extract
  conv_lhs => rw [← List.take_append_drop p s]
  rw [List.append_assoc]
  congr 1
  conv_lhs => rw [← List.take_append_drop (e - p) (s.drop p)]
  congr 1
  rw [List.drop_drop]
  congr 1
  omega

theorem kwScanAdv_sublist {kw repl : List Char} {adv : Nat} (hadv : 1 ≤ adv)
    (hsub : List.Sublist kw repl) :
    ∀ n s prev, s.length ≤ n → List.Sublist s (kwScanAdv kw repl adv prev s) := by
  intro n
  induction n with
  | zero =>
    intro s prev hs
    have hsn : s = [] := List.length_eq_zero.mp (by omega)
    subst hsn
    rw [kwScanAdv_nil]
  | succ n ih =>
    intro s prev hs
    rw [kwScanAdv_unfold hadv]
    by_cases hkw : kw.isEmpty = true
    · rw [if_pos hkw]
    · rw [if_neg hkw]
      have hk : kw ≠ [] := fun hh => hkw (by simp [hh])
      have hk1 : 1 ≤ kw.length := by
        cases kw with
        | nil => exact absurd rfl hk
        | cons c cs => simp
      cases hq : findSubstr kw s with
      | none => exact List.Sublist.refl s
      | some q =>
        dsimp only
        have hocc : occursAt kw s q = true := (findSubstr_eq_some_iff.mp hq).1
        have hbnd : q + kw.length ≤ s.length := occursAt_length hk hocc
        by_cases hok : (boundaryOkBefore prev s q
            && boundaryOkAfter kw s q) = true
        · rw [if_pos hok]
          conv_lhs => rw [occursAt_decomp hocc]
          rw [List.append_assoc, List.append_assoc]
          exact List.Sublist.append (List.Sublist.refl _)
            (List.Sublist.append hsub
              (ih _ _ (by simp [List.length_drop]; omega)))
        · rw [if_neg hok]
          conv_lhs => rw [← List.take_append_drop (q + adv) s]
          exact List.Sublist.append (List.Sublist.refl _)
            (ih _ _ (by simp [List.length_drop]; omega))

theorem kwLoop_sublist {kw repl : List Char} (hk : kw ≠ [])
    (hsub : List.Sublist kw repl) (s : List Char) :
    List.Sublist s (kwLoop kw repl s 0) := by
  have hk1 : 1 ≤ kw.length := by
    cases kw with
    | nil => exact absurd rfl hk
    | cons c cs => simp
  unfold kwLoop kwLoopAdv
  rw [show kwLoopAdvF (s.length + 1 - 0) kw repl kw.length s 0
    = kwLoopAdv kw repl kw.length s 0 from rfl]
  rw [kwLoopAdv_eq_scan hk1]
  exact kwScanAdv_sublist hk1 hsub s.length s none (le_refl _)

theorem keywordTransform_sublist (s : List Char) :
    List.Sublist s (keywordTransform s) := by
  unfold keywordTransform
  have hgen : ∀ (rules : List KeywordColor),
      (∀ kc ∈ rules, kc.keyword.data ≠ []) →
      ∀ u : List Char, List.Sublist u (rules.foldl
        (fun acc kc => kwLoop kc.keyword.data (keywordReplacement kc) acc 0) u) := by
    intro rules
    induction rules with
    | nil => intro _ u; exact List.Sublist.refl u
    | cons kc rest ih =>
      intro hne u
      rw [List.foldl_cons]
      have h1 : List.Sublist u (kwLoop kc.keyword.data (keywordReplacement kc) u 0) := by
        apply kwLoop_sublist (hne kc (by simp)) ?_ u
        unfold keywordReplacement
        exact sublist_mid
      exact h1.trans (ih (fun x hx => hne x (by simp [hx])) _)
  exact hgen keywordsWithColors (by decide) s

theorem strLoop_sublist : ∀ n s, s.length ≤ n → List.Sublist s (strLoop s 0) := by
  intro n
  induction n with
  | zero =>
    intro s hs
    have hsn : s = [] := List.length_eq_zero.mp (by omega)
    subst hsn
    exact List.Sublist.refl _
  | succ n ih =>
    intro s hs
    rw [strLoop_unfold]
    cases hp : findFrom ['"'] s 0 with
    | none => exact List.Sublist.refl s
    | some p =>
      dsimp only
      cases he : findFrom ['"'] s (p + 1) with
      | none => exact List.Sublist.refl s
      | some e =>
        dsimp only
        obtain ⟨hp0, hp2⟩ := findFrom_bounds (by simp) hp
        obtain ⟨he0, he2⟩ := findFrom_bounds (by simp) he
        simp only [List.length_cons, List.length_nil] at hp2 he2
        have hA : p + (strRepl s p e).length
            = (s.take p ++ strRepl s p e).length := by
          simp [List.length_append, List.length_take]
          omega
        rw [hA]
        have hassoc : s.take p ++ strRepl s p e ++ s.drop (e + 1)
            = (s.take p ++ strRepl s p e) ++ s.drop (e + 1) := by
          simp [List.append_assoc]
        rw [hassoc]
        rw [strLoop_glue (s.drop (e + 1)).length (s.drop (e + 1))
          (s.take p ++ strRepl s p e) (le_refl _)]
        have hdec : s = s.take p ++ extract s p (e - p + 1) ++ s.drop (e + 1) := by
          have h1 := @decomp_three s p (e + 1) (by omega) (by omega)
          rw [show e + 1 - p = e - p + 1 by omega] at h1
          exact h1
        conv_lhs => rw [hdec]
        rw [List.append_assoc, List.append_assoc]
        refine List.Sublist.append (List.Sublist.refl _) ?_
        refine List.Sublist.append ?_ (ih _ (by simp [List.length_drop]; omega))
        unfold strRepl
        exact sublist_mid

theorem comLoop_sublist : ∀ n s, s.length ≤ n → List.Sublist s (comLoop s 0) := by
  intro n
  induction n with
  | zero =>
    intro s hs
    have hsn : s = [] := List.length_eq_zero.mp (by omega)
    subst hsn
    exact List.Sublist.refl _
  | succ n ih =>
    intro s hs
    rw [comLoop_unfold]
    cases hp : findFrom "//".data s 0 with
    | none => exact List.Sublist.refl s
    | some p =>
      dsimp only
      obtain ⟨hp0, hp2⟩ := findFrom_bounds (by simp) hp
      obtain ⟨hc1, hc2⟩ := comEnd_bounds hp
      have hA : p + (comRepl s p (comEnd s p)).length
          = (s.take p ++ comRepl s p (comEnd s p)).length := by
        simp [List.length_append, List.length_take]
        omega
      rw [hA]
      have hassoc : s.take p ++ comRepl s p (comEnd s p) ++ s.drop (comEnd s p)
          = (s.take p ++ comRepl s p (comEnd s p)) ++ s.drop (comEnd s p) := by
        simp [List.append_assoc]
      rw [hassoc]
      rw [comLoop_glue (s.drop (comEnd s p)).length (s.drop (comEnd s p))
        (s.take p ++ comRepl s p (comEnd s p)) (le_refl _)]
      conv_lhs => rw [decomp_three (le_of_lt hc1) hc2]
      rw [List.append_assoc, List.append_assoc]
      refine List.Sublist.append (List.Sublist.refl _) ?_
      refine List.Sublist.append ?_ (ih _ (by simp [List.length_drop]; omega))
      unfold comRepl
      exact sublist_mid

/-- C9: each annotator's text transformation only inserts span markup: the
input is an order-preserving subsequence (`List.Sublist`) of the output,
and the output is never shorter than the input. -/
theorem c9_only_inserts (s : List Char) :
    (List.Sublist s (keywordTransform s)
        ∧ s.length ≤ (keywordTransform s).length)
    ∧ (List.Sublist s (stringTransform s)
        ∧ s.length ≤ (stringTransform s).length)
    ∧ (List.Sublist s (commentTransform s)
        ∧ s.length ≤ (commentTransform s).length) := by
  have h1 := keywordTransform_sublist s
  have h2 : List.Sublist s (stringTransform s) := strLoop_sublist s.length s (le_refl _)
  have h3 : List.Sublist s (commentTransform s) := comLoop_sublist s.length s (le_refl _)
  exact ⟨⟨h1, h1.length_le⟩, ⟨h2, h2.length_le⟩, ⟨h3, h3.length_le⟩⟩

/-! ## Unterminated string literals (claim C5) -/

theorem count_zero_of_no_occur {s : List Char} {c : Char} {m k : Nat}
    (h : ∀ r, m ≤ r → r < m + k → occursAt [c] s r = false) :
    ((s.drop m).take k).count c = 0 := by
  rw [List.count_eq_zero]
  intro hmem
  obtain ⟨i, hi, hget⟩ := List.mem_iff_getElem.mp hmem
  have hik : i < k := by
    simp [List.length_take, List.length_drop] at hi
    omega
  have hchar : s[m + i]? = some c := by
    have h1 : ((s.drop m).take k)[i]? = some c := by
      rw [List.getElem?_eq_getElem hi, hget]
    rw [List.getElem?_take, if_pos hik] at h1
    rwa [List.getElem?_drop] at h1
  have hocc := occursAt_singleton.mpr hchar
  rw [h (m + i) (by omega) (by omega)] at hocc
  exact Bool.noConfusion hocc

theorem drop_cons_of_getElem {s : List Char} {p : Nat} {c : Char}
    (h : s[p]? = some c) : s.drop p = c :: s.drop (p + 1) := by
  have hocc := occursAt_singleton.mpr h
  have h2 := occursAt_drop_eq hocc
  simpa using h2

theorem count_take_pair {s : List Char} {p e : Nat}
    (hp : findFrom ['"'] s 0 = some p)
    (he : findFrom ['"'] s (p + 1) = some e) :
    (s.take (e + 1)).count '"' = 2 := by
  obtain ⟨-, hpocc, hpmin⟩ := findFrom_eq_some_iff.mp hp
  obtain ⟨hpe, heocc, hemin⟩ := findFrom_eq_some_iff.mp he
  have hpc : s[p]? = some '"' := occursAt_singleton.mp hpocc
  have hec : s[e]? = some '"' := occursAt_singleton.mp heocc
  rw [show e + 1 = p + (e + 1 - p) by omega, List.take_add, List.count_append]
  have h0 : (s.take p).count '"' = 0 := by
    have h1 := @count_zero_of_no_occur s '"' 0 p
      (fun r hr1 hr2 => hpmin r (by omega) (by omega))
    simpa using h1
  rw [h0]
  rw [drop_cons_of_getElem hpc]
  rw [show e + 1 - p = (e - p) + 1 by omega, List.take_succ_cons,
    List.count_cons]
  rw [show e - p = (e - (p + 1)) + 1 by omega, List.take_add,
    List.count_append]
  have hmid : ((s.drop (p + 1)).take (e - (p + 1))).count '"' = 0 :=
    @count_zero_of_no_occur s '"' (p + 1) (e - (p + 1))
      (fun r hr1 hr2 => hemin r (by omega) (by omega))
  rw [hmid]
  rw [List.drop_drop, show p + 1 + (e - (p + 1)) = e by omega]
  rw [drop_cons_of_getElem hec]
  simp

theorem occursAt_singleton_take {s : List Char} {q r : Nat} {c : Char} :
    occursAt [c] (s.take q) r = true ↔ r < q ∧ s[r]? = some c := by
  rw [occursAt_singleton, List.getElem?_take]
  by_cases hr : r < q
  · rw [if_pos hr]
    simp [hr]
  · rw [if_neg hr]
    simp [hr]

theorem strLoop_no_quote {t : List Char}
    (h : ∀ r, occursAt ['"'] t r = false) : strLoop t 0 = t := by
  rw [strLoop_unfold, findFrom_eq_none_iff.mpr (fun r _ => h r)]

theorem c5_aux :
    ∀ n s q, s.length ≤ n →
      s[q]? = some '"' →
      (∀ r, q < r → occursAt ['"'] s r = false) →
      ((s.take q).count '"') % 2 = 0 →
      strLoop s 0 = strLoop (s.take q) 0 ++ s.drop q := by
  intro n
  induction n with
  | zero =>
    intro s q hs hc _ _
    have hsn : s = [] := List.length_eq_zero.mp (by omega)
    subst hsn
    simp at hc
  | succ n ih =>
    intro s q hs hc hafter heven
    have hqlen : q < s.length := by
      by_contra hcon
      rw [List.getElem?_eq_none (by omega)] at hc
      exact Option.noConfusion hc
    have hoccq : occursAt ['"'] s q = true := occursAt_singleton.mpr hc
    rw [strLoop_unfold]
    cases hp : findFrom ['"'] s 0 with
    | none =>
      exfalso
      have h1 := findFrom_eq_none_iff.mp hp q (Nat.zero_le q)
      rw [h1] at hoccq
      exact Bool.noConfusion hoccq
    | some p =>
      dsimp only
      obtain ⟨-, hpocc, hpmin⟩ := findFrom_eq_some_iff.mp hp
      have hpc : s[p]? = some '"' := occursAt_singleton.mp hpocc
      have hpq : p ≤ q := by
        by_contra hcon
        have h1 := hpmin q (Nat.zero_le q) (by omega)
        rw [h1] at hoccq
        exact Bool.noConfusion hoccq
      cases he : findFrom ['"'] s (p + 1) with
      | none =>
        dsimp only
        have hqp : q = p := by
          rcases Nat.lt_or_ge q (p + 1) with h1 | h1
          · omega
          · exfalso
            have h2 := findFrom_eq_none_iff.mp he q h1
            rw [h2] at hoccq
            exact Bool.noConfusion hoccq
        subst hqp
        have hnp : ∀ r, occursAt ['"'] (s.take q) r = false := by
          intro r
          cases hor : occursAt ['"'] (s.take q) r with
          | false => rfl
          | true =>
            exfalso
            obtain ⟨hr1, hr2⟩ := occursAt_singleton_take.mp hor
            have h3 := hpmin r (Nat.zero_le r) hr1
            rw [occursAt_singleton.mpr hr2] at h3
            exact Bool.noConfusion h3
        rw [strLoop_no_quote hnp]
        exact (List.take_append_drop q s).symm
      | some e =>
        dsimp only
        obtain ⟨hpe, heocc, hemin⟩ := findFrom_eq_some_iff.mp he
        have hec : s[e]? = some '"' := occursAt_singleton.mp heocc
        obtain ⟨-, he2⟩ := findFrom_bounds (by simp) he
        simp only [List.length_cons, List.length_nil] at he2
        have heq : e ≤ q := by
          by_contra hcon
          rcases Nat.eq_or_lt_of_le hpq with h1 | h1
          · have h2 := hafter e (by omega)
            rw [h2] at heocc
            exact Bool.noConfusion heocc
          · have h2 := hemin q (by omega) (by omega)
            rw [h2] at hoccq
            exact Bool.noConfusion hoccq
        have hlt : e < q := by
          rcases Nat.eq_or_lt_of_le heq with h1 | h1
          · exfalso
            subst h1
            have hcount : (s.take e).count '"' = 1 := by
              rw [show (e : Nat) = p + (e - p) by omega, List.take_add,
                List.count_append]
              have h0 : (s.take p).count '"' = 0 := by
                have h2 := @count_zero_of_no_occur s '"' 0 p
                  (fun r hr1 hr2 => hpmin r (by omega) (by omega))
                simpa using h2
              rw [h0]
              rw [drop_cons_of_getElem hpc]
              rw [show e - p = (e - (p + 1)) + 1 by omega,
                List.take_succ_cons, List.count_cons]
              have hmid : ((s.drop (p + 1)).take (e - (p + 1))).count '"' = 0 :=
                @count_zero_of_no_occur s '"' (p + 1) (e - (p + 1))
                  (fun r hr1 hr2 => hemin r (by omega) (by omega))
              rw [hmid]
              simp
            rw [hcount] at heven
            simp at heven
          · exact h1
        have hcnt2 : (s.take (e + 1)).count '"' = 2 := count_take_pair hp he
        have heven' : (((s.drop (e + 1)).take (q - (e + 1))).count '"') % 2
            = 0 := by
          have hsplit : (s.take q).count '"'
              = (s.take (e + 1)).count '"'
                + ((s.drop (e + 1)).take (q - (e + 1))).count '"' := by
            rw [show (q : Nat) = (e + 1) + (q - (e + 1)) by omega,
              List.take_add, List.count_append]
            rw [show e + 1 + (q - (e + 1)) - (e + 1) = q - (e + 1) by omega]
          rw [hsplit, hcnt2] at heven
          omega
        have hA : p + (strRepl s p e).length
            = (s.take p ++ strRepl s p e).length := by
          simp [List.length_append, List.length_take]
          omega
        rw [hA]
        have hassoc : s.take p ++ strRepl s p e ++ s.drop (e + 1)
            = (s.take p ++ strRepl s p e) ++ s.drop (e + 1) := by
          simp [List.append_assoc]
        rw [hassoc]
        rw [strLoop_glue (s.drop (e + 1)).length (s.drop (e + 1))
          (s.take p ++ strRepl s p e) (le_refl _)]
        have hq' : (s.drop (e + 1))[q - (e + 1)]? = some '"' := by
          rw [List.getElem?_drop, show e + 1 + (q - (e + 1)) = q by omega]
          exact hc
        have hafter' : ∀ r, q - (e + 1) < r →
            occursAt ['"'] (s.drop (e + 1)) r = false := by
          intro r hr
          rw [occursAt_drop_add]
          exact hafter (e + 1 + r) (by omega)
        have hih := ih (s.drop (e + 1)) (q - (e + 1))
          (by simp [List.length_drop]; omega) hq' hafter' heven'
        rw [hih]
        -- now evaluate strLoop (s.take q) 0 on the right
        have hfp' : findFrom ['"'] (s.take q) 0 = some p := by
          rw [findFrom_eq_some_iff]
          refine ⟨Nat.zero_le p, occursAt_singleton_take.mpr ⟨by omega, hpc⟩, ?_⟩
          intro r hr1 hr2
          cases hor : occursAt ['"'] (s.take q) r with
          | false => rfl
          | true =>
            exfalso
            obtain ⟨hra, hrb⟩ := occursAt_singleton_take.mp hor
            have h3 := hpmin r (Nat.zero_le r) hr2
            rw [occursAt_singleton.mpr hrb] at h3
            exact Bool.noConfusion h3
        have hfe' : findFrom ['"'] (s.take q) (p + 1) = some e := by
          rw [findFrom_eq_some_iff]
          refine ⟨hpe, occursAt_singleton_take.mpr ⟨by omega, hec⟩, ?_⟩
          intro r hr1 hr2
          cases hor : occursAt ['"'] (s.take q) r with
          | false => rfl
          | true =>
            exfalso
            obtain ⟨hra, hrb⟩ := occursAt_singleton_take.mp hor
            have h3 := hemin r hr1 hr2
            rw [occursAt_singleton.mpr hrb] at h3
            exact Bool.noConfusion h3
        rw [strLoop_unfold (s.take q) 0, hfp']
        dsimp only
        rw [hfe']
        dsimp only
        have htt : (s.take q).take p = s.take p := by
          rw [List.take_take]
          congr 1
          omega
        have hrepl : strRepl (s.take q) p e = strRepl s p e := by
          have hmid : ((s.take q).drop p).take (e - p + 1)
              = (s.drop p).take (e - p + 1) := by
            rw [List.drop_take, List.take_take]
            congr 1
            omega
          unfold strRepl extract
          rw [hmid]
        have hdt : (s.take q).drop (e + 1)
            = (s.drop (e + 1)).take (q - (e + 1)) := by
          rw [List.drop_take]
        rw [htt, hrepl, hdt]
        have hA2 : p + (strRepl s p e).length
            = (s.take p ++ strRepl s p e).length := hA
        rw [hA2]
        have hassoc2 : s.take p ++ strRepl s p e
              ++ (s.drop (e + 1)).take (q - (e + 1))
            = (s.take p ++ strRepl s p e)
              ++ (s.drop (e + 1)).take (q - (e + 1)) := by
          simp [List.append_assoc]
        rw [hassoc2]
        rw [strLoop_glue ((s.drop (e + 1)).take (q - (e + 1))).length
          ((s.drop (e + 1)).take (q - (e + 1)))
          (s.take p ++ strRepl s p e) (le_refl _)]
        have hdd : (s.drop (e + 1)).drop (q - (e + 1)) = s.drop q := by
          rw [List.drop_drop, show e + 1 + (q - (e + 1)) = q by omega]
        rw [hdd]
        simp [List.append_assoc]

/-- C5: when a double quote (at index `q`, with the quotes before it evenly
paired) has no later quote to match it, the scan stops there: the output
is the processed prefix followed by the unpaired quote and everything
after it byte-for-byte unchanged.  The scan is total — this is not an
error. -/
theorem c5_unterminated {s : List Char} {q : Nat}
    (hc : s[q]? = some '"')
    (hafter : ∀ r, q < r → occursAt ['"'] s r = false)
    (heven : ((s.take q).count '"') % 2 = 0) :
    strLoop s 0 = strLoop (s.take q) 0 ++ s.drop q :=
  c5_aux s.length s q (le_refl _) hc hafter heven

/-- Witness for C5: in `ab"cd` the quote at index 2 is unpaired and the
tail `"cd` survives unchanged. -/
theorem c5_unterminated_witness :
    strLoop ("ab\"cd".data) 0
      = strLoop (("ab\"cd".data).take 2) 0 ++ ("ab\"cd".data).drop 2 := by
  refine c5_unterminated (by decide) ?_ (by decide)
  intro r hr
  rcases Nat.lt_or_ge r 5 with h5 | h5
  · interval_cases r <;> decide
  · exact occursAt_false_of_le (by decide) (le_trans (by decide) h5)

/-! ## Accepted positions of the keyword scan (claims C2, C10) -/

/-- Instrumented keyword scan: the list of positions (relative to `s`) at
which the scan of `kwLoop` accepts and wraps an occurrence.  Branch for
branch the recursion of `kwScanAdvF` with `adv = kw.length`. -/
def kwScanPosF (fuel : Nat) (kw repl : List Char) (prev : Option Char)
    (s : List Char) : List Nat :=
  match fuel with
  | 0 => []
  | fuel + 1 =>
    if kw.isEmpty then [] else
    match findSubstr kw s with
    | none => []
    | some q =>
      if boundaryOkBefore prev s q && boundaryOkAfter kw s q then
        q :: (kwScanPosF fuel kw repl (lastOr (s.take q ++ repl) prev)
            (s.drop (q + kw.length))).map (· + (q + kw.length))
      else
        (kwScanPosF fuel kw repl (lastOr (s.take (q + kw.length)) prev)
            (s.drop (q + kw.length))).map (· + (q + kw.length))

/-- The accepted positions with sufficient fuel. -/
def kwScanPos (kw repl : List Char) (prev : Option Char) (s : List Char) :
    List Nat :=
  kwScanPosF (s.length + 1) kw repl prev s

theorem kwScanPosF_congr {kw repl : List Char} :
    ∀ f g prev s, s.length < f → s.length < g →
      kwScanPosF f kw repl prev s = kwScanPosF g kw repl prev s := by
  intro f
  induction f with
  | zero => intro g prev s hf hg; omega
  | succ f ih =>
    intro g prev s hf hg
    cases g with
    | zero => omega
    | succ g =>
      simp only [kwScanPosF]
      by_cases hkw : kw.isEmpty = true
      · rw [if_pos hkw, if_pos hkw]
      · rw [if_neg hkw, if_neg hkw]
        have hk : kw ≠ [] := fun hh => hkw (by simp [hh])
        have hk1 : 1 ≤ kw.length := by
          cases kw with
          | nil => exact absurd rfl hk
          | cons c cs => simp
        cases hq : findSubstr kw s with
        | none => rfl
        | some q =>
          dsimp only
          have hb := findSubstr_bounds hk hq
          by_cases hok : (boundaryOkBefore prev s q
              && boundaryOkAfter kw s q) = true
          · rw [if_pos hok, if_pos hok]
            rw [ih g _ _ (by simp [List.length_drop]; omega)
              (by simp [List.length_drop]; omega)]
          · rw [if_neg hok, if_neg hok]
            rw [ih g _ _ (by simp [List.length_drop]; omega)
              (by simp [List.length_drop]; omega)]

theorem kwScanPosF_toScan {kw repl : List Char} {f : Nat} {prev : Option Char}
    {s : List Char} (h : s.length < f) :
    kwScanPosF f kw repl prev s = kwScanPos kw repl prev s :=
  kwScanPosF_congr f (s.length + 1) prev s h (by omega)

theorem kwScanPos_unfold {kw repl : List Char} (prev : Option Char)
    (s : List Char) :
    kwScanPos kw repl prev s =
      if kw.isEmpty then [] else
      match findSubstr kw s with
      | none => []
      | some q =>
        if boundaryOkBefore prev s q && boundaryOkAfter kw s q then
          q :: (kwScanPos kw repl (lastOr (s.take q ++ repl) prev)
              (s.drop (q + kw.length))).map (· + (q + kw.length))
        else
          (kwScanPos kw repl (lastOr (s.take (q + kw.length)) prev)
              (s.drop (q + kw.length))).map (· + (q + kw.length)) := by
  have hstep : kwScanPos kw repl prev s
      = kwScanPosF (s.length + 1) kw repl prev s := rfl
  rw [hstep]
  simp only [kwScanPosF]
  by_cases hkw : kw.isEmpty = true
  · rw [if_pos hkw, if_pos hkw]
  · rw [if_neg hkw, if_neg hkw]
    have hk : kw ≠ [] := fun hh => hkw (by simp [hh])
    have hk1 : 1 ≤ kw.length := by
      cases kw with
      | nil => exact absurd rfl hk
      | cons c cs => simp
    cases hq : findSubstr kw s with
    | none => rfl
    | some q =>
      dsimp only
      have hb := findSubstr_bounds hk hq
      by_cases hok : (boundaryOkBefore prev s q
          && boundaryOkAfter kw s q) = true
      · rw [if_pos hok, if_pos hok]
        rw [kwScanPosF_toScan (by simp [List.length_drop]; omega)]
      · rw [if_neg hok, if_neg hok]
        rw [kwScanPosF_toScan (by simp [List.length_drop]; omega)]

theorem kwScanPos_nil {kw repl : List Char} {prev : Option Char} :
    kwScanPos kw repl prev [] = [] := by
  rw [kwScanPos_unfold]
  by_cases hkw : kw.isEmpty = true
  · rw [if_pos hkw]
  · rw [if_neg hkw]
    unfold findSubstr
    rw [if_neg hkw]

/-- Splice the replacement in at each listed occurrence (positions are
relative to the current suffix, in scan order). -/
def wrapAll (kw repl : List Char) (s : List Char) : List Nat → List Char
  | [] => s
  | p :: rest =>
    s.take p ++ repl
      ++ wrapAll kw repl (s.drop (p + kw.length))
          (rest.map (· - (p + kw.length)))
termination_by ps => ps.length
decreasing_by simp

theorem wrapAll_shift {kw repl : List Char} (ps : List Nat) (k : Nat)
    (s : List Char) :
    wrapAll kw repl s (ps.map (· + k))
      = s.take k ++ wrapAll kw repl (s.drop k) ps := by
  cases ps with
  | nil => simp [wrapAll, List.take_append_drop]
  | cons p rest =>
    simp only [List.map_cons, wrapAll]
    rw [show p + k + kw.length = k + (p + kw.length) by omega]
    rw [← List.drop_drop]
    rw [show p + k = k + p by omega, List.take_add]
    have hmap : (rest.map (· + k)).map (· - (k + (p + kw.length)))
        = rest.map (· - (p + kw.length)) := by
      rw [List.map_map]
      apply List.map_congr_left
      intro x _
      simp only [Function.comp]
      omega
    rw [hmap]
    simp [List.append_assoc]

theorem kwScan_eq_wrapAll {kw repl : List Char} (hk : kw ≠ []) :
    ∀ n s prev, s.length ≤ n →
      kwScanAdv kw repl kw.length prev s
        = wrapAll kw repl s (kwScanPos kw repl prev s) := by
  have hk1 : 1 ≤ kw.length := by
    cases kw with
    | nil => exact absurd rfl hk
    | cons c cs => simp
  have hkw : ¬(kw.isEmpty = true) := fun hh => hk (List.isEmpty_iff.mp hh)
  intro n
  induction n with
  | zero =>
    intro s prev hs
    have hsn : s = [] := List.length_eq_zero.mp (by omega)
    subst hsn
    rw [kwScanAdv_nil, kwScanPos_nil]
    simp [wrapAll]
  | succ n ih =>
    intro s prev hs
    rw [kwScanAdv_unfold hk1, kwScanPos_unfold]
    rw [if_neg hkw, if_neg hkw]
    cases hq : findSubstr kw s with
    | none => dsimp only; simp [wrapAll]
    | some q =>
      dsimp only
      have hb := findSubstr_bounds hk hq
      by_cases hok : (boundaryOkBefore prev s q
          && boundaryOkAfter kw s q) = true
      · rw [if_pos hok, if_pos hok]
        simp only [wrapAll]
        have hmap : ((kwScanPos kw repl (lastOr (s.take q ++ repl) prev)
              (s.drop (q + kw.length))).map (· + (q + kw.length))).map
                (· - (q + kw.length))
            = kwScanPos kw repl (lastOr (s.take q ++ repl) prev)
                (s.drop (q + kw.length)) := by
          rw [List.map_map]
          have hid : ∀ x ∈ kwScanPos kw repl (lastOr (s.take q ++ repl) prev)
              (s.drop (q + kw.length)),
              ((· - (q + kw.length)) ∘ (· + (q + kw.length))) x = x := by
            intro x _
            simp only [Function.comp]
            omega
          rw [List.map_congr_left hid]
          simp
        rw [hmap]
        rw [ih _ _ (by simp [List.length_drop]; omega)]
      · rw [if_neg hok, if_neg hok]
        rw [wrapAll_shift]
        rw [ih _ _ (by simp [List.length_drop]; omega)]

theorem boundaryOkAfter_drop {kw s : List Char} {k x : Nat} :
    boundaryOkAfter kw (s.drop k) x = boundaryOkAfter kw s (k + x) := by
  unfold boundaryOkAfter
  rw [List.getElem?_drop, show k + (x + kw.length) = k + x + kw.length by omega]

theorem boundaryOkBefore_drop {prevA prevB : Option Char} {s : List Char}
    {k x : Nat} (hx : x ≠ 0) :
    boundaryOkBefore prevA (s.drop k) x = boundaryOkBefore prevB s (k + x) := by
  unfold boundaryOkBefore
  rw [if_neg hx, if_neg (show ¬(k + x = 0) by omega)]
  rw [List.getElem?_drop, show k + (x - 1) = k + x - 1 by omega]

theorem getLast?_take_eq {s : List Char} {m : Nat} (h1 : 1 ≤ m)
    (h2 : m ≤ s.length) : (s.take m).getLast? = s[m - 1]? := by
  rw [List.getLast?_eq_getElem?, List.length_take]
  rw [show m ⊓ s.length - 1 = m - 1 by omega]
  rw [List.getElem?_take, if_pos (by omega)]

theorem mem_of_getElem?_eq {l : List Char} {n : Nat} {c : Char}
    (h : l[n]? = some c) : c ∈ l := by
  obtain ⟨hn, he⟩ := List.getElem?_eq_some.mp h
  exact he ▸ List.getElem_mem hn

/-- The heart of claim C2: for a nonempty, wholly alphanumeric keyword,
the scan accepts exactly the occurrences whose neighbour characters pass
the word-boundary check — positions measured in the original input. -/
theorem kwScanPos_mem {kw repl : List Char} (hk : kw ≠ [])
    (hal : ∀ c ∈ kw, isAlnum c = true) :
    ∀ n s prev p, s.length ≤ n →
      (p ∈ kwScanPos kw repl prev s ↔
        (occursAt kw s p = true
          ∧ boundaryOkBefore prev s p = true
          ∧ boundaryOkAfter kw s p = true)) := by
  have hk1 : 1 ≤ kw.length := by
    cases kw with
    | nil => exact absurd rfl hk
    | cons c cs => simp
  have hkw : ¬(kw.isEmpty = true) := fun hh => hk (List.isEmpty_iff.mp hh)
  obtain ⟨c0, hc0⟩ : ∃ c, kw[0]? = some c := by
    cases h : kw[0]? with
    | none =>
      rw [List.getElem?_eq_none_iff] at h
      omega
    | some c => exact ⟨c, rfl⟩
  have hc0al : isAlnum c0 = true := hal c0 (mem_of_getElem?_eq hc0)
  obtain ⟨cl, hcl⟩ : ∃ c, kw[kw.length - 1]? = some c := by
    cases h : kw[kw.length - 1]? with
    | none =>
      rw [List.getElem?_eq_none_iff] at h
      omega
    | some c => exact ⟨c, rfl⟩
  have hclal : isAlnum cl = true := hal cl (mem_of_getElem?_eq hcl)
  intro n
  induction n with
  | zero =>
    intro s prev p hs
    have hsn : s = [] := List.length_eq_zero.mp (by omega)
    subst hsn
    rw [kwScanPos_nil]
    simp only [List.not_mem_nil, false_iff]
    intro ⟨ho, _, _⟩
    rw [occursAt_nil_of_ne hk] at ho
    exact Bool.noConfusion ho
  | succ n ih =>
    intro s prev p hs
    rw [kwScanPos_unfold, if_neg hkw]
    cases hq : findSubstr kw s with
    | none =>
      dsimp only
      simp only [List.not_mem_nil, false_iff]
      intro ⟨ho, _, _⟩
      rw [findSubstr_eq_none_iff.mp hq p] at ho
      exact Bool.noConfusion ho
    | some q =>
      dsimp only
      obtain ⟨hocc, hmin⟩ := findSubstr_eq_some_iff.mp hq
      have hb : q + kw.length ≤ s.length := occursAt_length hk hocc
      have hinterior : ∀ r, q < r → r < q + kw.length →
          ¬(occursAt kw s r = true ∧ boundaryOkBefore prev s r = true
            ∧ boundaryOkAfter kw s r = true) := by
        rintro r hr1 hr2 ⟨ho, hbef, -⟩
        have hi : r - 1 - q < kw.length := by omega
        have hchar : s[q + (r - 1 - q)]? = kw[r - 1 - q]? :=
          occursAt_getElem hocc hi
        rw [show q + (r - 1 - q) = r - 1 by omega] at hchar
        obtain ⟨ci, hci⟩ : ∃ c, kw[r - 1 - q]? = some c := by
          cases hcc : kw[r - 1 - q]? with
          | none =>
            rw [List.getElem?_eq_none_iff] at hcc
            omega
          | some c => exact ⟨c, rfl⟩
        have hcial : isAlnum ci = true := hal ci (mem_of_getElem?_eq hci)
        unfold boundaryOkBefore at hbef
        rw [if_neg (show ¬(r = 0) by omega), hchar, hci] at hbef
        dsimp only at hbef
        rw [hcial] at hbef
        exact Bool.noConfusion hbef
      have hclast : s[q + kw.length - 1]? = some cl := by
        have h1 : s[q + (kw.length - 1)]? = kw[kw.length - 1]? :=
          occursAt_getElem hocc (by omega)
        rw [show q + (kw.length - 1) = q + kw.length - 1 by omega] at h1
        rw [h1, hcl]
      by_cases hok : (boundaryOkBefore prev s q
          && boundaryOkAfter kw s q) = true
      · rw [if_pos hok]
        obtain ⟨hbefq, haftq⟩ := (Bool.and_eq_true _ _).mp hok
        have hnotnext : occursAt kw s (q + kw.length) = false := by
          cases hoccn : occursAt kw s (q + kw.length) with
          | false => rfl
          | true =>
            exfalso
            have h0 : s[(q + kw.length) + 0]? = kw[0]? :=
              occursAt_getElem hoccn (by omega)
            rw [Nat.add_zero, hc0] at h0
            unfold boundaryOkAfter at haftq
            rw [h0] at haftq
            dsimp only at haftq
            rw [hc0al] at haftq
            exact Bool.noConfusion haftq
        rw [List.mem_cons, List.mem_map]
        constructor
        · rintro (rfl | ⟨x, hx, rfl⟩)
          · exact ⟨hocc, hbefq, haftq⟩
          · obtain ⟨ho, hb2, ha2⟩ := (ih _ _ x
              (by simp [List.length_drop]; omega)).mp hx
            rw [occursAt_drop_add] at ho
            have hxne : x ≠ 0 := by
              intro h0
              subst h0
              rw [Nat.add_zero, hnotnext] at ho
              exact Bool.noConfusion ho
            refine ⟨?_, ?_, ?_⟩
            · rw [show x + (q + kw.length) = (q + kw.length) + x by omega]
              exact ho
            · rw [@boundaryOkBefore_drop
                (lastOr (s.take q ++ repl) prev) prev s (q + kw.length) x hxne]
                at hb2
              rw [show x + (q + kw.length) = (q + kw.length) + x by omega]
              exact hb2
            · rw [@boundaryOkAfter_drop kw s (q + kw.length) x] at ha2
              rw [show x + (q + kw.length) = (q + kw.length) + x by omega]
              exact ha2
        · rintro ⟨ho, hbef, haft⟩
          by_cases hpq : p < q
          · exfalso
            rw [hmin p hpq] at ho
            exact Bool.noConfusion ho
          by_cases hpq2 : p = q
          · exact Or.inl hpq2
          · right
            have hge : q + kw.length ≤ p := by
              by_contra hcon
              exact hinterior p (by omega) (by omega) ⟨ho, hbef, haft⟩
            have hne : p ≠ q + kw.length := by
              intro h0
              rw [h0, hnotnext] at ho
              exact Bool.noConfusion ho
            have hxne : p - (q + kw.length) ≠ 0 := by omega
            refine ⟨p - (q + kw.length), ?_, by omega⟩
            rw [ih _ _ _ (by simp [List.length_drop]; omega)]
            refine ⟨?_, ?_, ?_⟩
            · rw [occursAt_drop_add,
                show (q + kw.length) + (p - (q + kw.length)) = p by omega]
              exact ho
            · rw [@boundaryOkBefore_drop
                (lastOr (s.take q ++ repl) prev) prev s (q + kw.length)
                (p - (q + kw.length)) hxne,
                show (q + kw.length) + (p - (q + kw.length)) = p by omega]
              exact hbef
            · rw [@boundaryOkAfter_drop kw s (q + kw.length)
                (p - (q + kw.length)),
                show (q + kw.length) + (p - (q + kw.length)) = p by omega]
              exact haft
      · rw [if_neg hok]
        have hprev' : lastOr (s.take (q + kw.length)) prev = some cl := by
          unfold lastOr
          rw [getLast?_take_eq (by omega) (by omega), hclast]
        rw [List.mem_map]
        constructor
        · rintro ⟨x, hx, rfl⟩
          obtain ⟨ho, hb2, ha2⟩ := (ih _ _ x
            (by simp [List.length_drop]; omega)).mp hx
          rw [occursAt_drop_add] at ho
          have hxne : x ≠ 0 := by
            intro h0
            subst h0
            unfold boundaryOkBefore at hb2
            rw [if_pos rfl, hprev'] at hb2
            dsimp only at hb2
            rw [hclal] at hb2
            exact Bool.noConfusion hb2
          refine ⟨?_, ?_, ?_⟩
          · rw [show x + (q + kw.length) = (q + kw.length) + x by omega]
            exact ho
          · rw [@boundaryOkBefore_drop
              (lastOr (s.take (q + kw.length)) prev) prev s
              (q + kw.length) x hxne] at hb2
            rw [show x + (q + kw.length) = (q + kw.length) + x by omega]
            exact hb2
          · rw [@boundaryOkAfter_drop kw s (q + kw.length) x] at ha2
            rw [show x + (q + kw.length) = (q + kw.length) + x by omega]
            exact ha2
        · rintro ⟨ho, hbef, haft⟩
          by_cases hpq : p < q
          · exfalso
            rw [hmin p hpq] at ho
            exact Bool.noConfusion ho
          by_cases hpq2 : p = q
          · exfalso
            subst hpq2
            rw [hbef, haft] at hok
            exact hok rfl
          have hge : q + kw.length ≤ p := by
            by_contra hcon
            exact hinterior p (by omega) (by omega) ⟨ho, hbef, haft⟩
          have hne : p ≠ q + kw.length := by
            intro h0
            unfold boundaryOkBefore at hbef
            rw [if_neg (show ¬(p = 0) by omega)] at hbef
            rw [h0, hclast] at hbef
            dsimp only at hbef
            rw [hclal] at hbef
            exact Bool.noConfusion hbef
          have hxne : p - (q + kw.length) ≠ 0 := by omega
          refine ⟨p - (q + kw.length), ?_, by omega⟩
          rw [ih _ _ _ (by simp [List.length_drop]; omega)]
          refine ⟨?_, ?_, ?_⟩
          · rw [occursAt_drop_add,
              show (q + kw.length) + (p - (q + kw.length)) = p by omega]
            exact ho
          · rw [@boundaryOkBefore_drop
              (lastOr (s.take (q + kw.length)) prev) prev s (q + kw.length)
              (p - (q + kw.length)) hxne,
              show (q + kw.length) + (p - (q + kw.length)) = p by omega]
            exact hbef
          · rw [@boundaryOkAfter_drop kw s (q + kw.length)
              (p - (q + kw.length)),
              show (q + kw.length) + (p - (q + kw.length)) = p by omega]
            exact haft

/-- C2 (amended): for every keyword rule whose keyword is nonempty and
consists only of alphanumeric characters, the per-rule keyword loop wraps
exactly the literal occurrences at whose boundaries no alphanumeric
character stands — the character just before the occurrence (when one
exists) is not alphanumeric and the character just after it (when one
exists) is not alphanumeric; occurrences strictly inside identifiers are
never annotated, and an occurrence touching the start or end of the input
is annotated when its other boundary also passes.  (For the `#include`
rule, whose keyword starts with `#`, the as-frozen claim fails:
see the counterexample.) -/
theorem c2_whole_word_iff {kw repl : List Char} (hk : kw ≠ [])
    (hal : ∀ c ∈ kw, isAlnum c = true) (s : List Char) (p : Nat) :
    kwLoop kw repl s 0 = wrapAll kw repl s (kwScanPos kw repl none s)
    ∧ (p ∈ kwScanPos kw repl none s ↔
        (occursAt kw s p = true
          ∧ boundaryOkBefore none s p = true
          ∧ boundaryOkAfter kw s p = true)) := by
  have hk1 : 1 ≤ kw.length := by
    cases kw with
    | nil => exact absurd rfl hk
    | cons c cs => simp
  constructor
  · unfold kwLoop
    rw [kwLoopAdv_eq_scan hk1]
    exact kwScan_eq_wrapAll hk s.length s none (le_refl _)
  · exact kwScanPos_mem hk hal s.length s none p (le_refl _)

/-- Witness for C2 at the `int` rule on `int x`. -/
theorem c2_whole_word_iff_witness :
    kwLoop ("int".data) (keywordReplacement ⟨"int", "blue"⟩) ("int x".data) 0
      = wrapAll ("int".data) (keywordReplacement ⟨"int", "blue"⟩)
          ("int x".data)
          (kwScanPos ("int".data) (keywordReplacement ⟨"int", "blue"⟩) none
            ("int x".data))
    ∧ 0 ∈ kwScanPos ("int".data) (keywordReplacement ⟨"int", "blue"⟩) none
        ("int x".data) :=
  ⟨(c2_whole_word_iff (by decide) (by decide) ("int x".data) 0).1,
   (c2_whole_word_iff (by decide) (by decide) ("int x".data) 0).2.mpr
     ⟨by decide, by decide, by decide⟩⟩

/-- Counterexample to C2 as frozen: on input `#include#include` the
`#include` rule annotates the occurrence at position 8 (both occurrences
appear in the accepted-position list, and the loop's output is the input
with both occurrences wrapped), although the character immediately before
position 8 is the alphanumeric `e`.  The "only if" direction of the claim
therefore fails for the `#include` rule. -/
theorem c2_counterexample :
    kwScanPos ("#include".data) (keywordReplacement ⟨"#include", "red"⟩) none
        ("#include#include".data) = [0, 8]
    ∧ occursAt ("#include".data) ("#include#include".data) 8 = true
    ∧ isAlnum (("#include#include".data).getD 7 ' ') = true
    ∧ kwLoop ("#include".data) (keywordReplacement ⟨"#include", "red"⟩)
        ("#include#include".data) 0
      = wrapAll ("#include".data) (keywordReplacement ⟨"#include", "red"⟩)
          ("#include#include".data) [0, 8] := by
  refine ⟨by decide, by decide, by decide, ?_⟩
  have h1 : kwLoop ("#include".data) (keywordReplacement ⟨"#include", "red"⟩)
      ("#include#include".data) 0
      = wrapAll ("#include".data) (keywordReplacement ⟨"#include", "red"⟩)
          ("#include#include".data)
          (kwScanPos ("#include".data)
            (keywordReplacement ⟨"#include", "red"⟩) none
            ("#include#include".data)) := by
    unfold kwLoop
    rw [kwLoopAdv_eq_scan (by decide)]
    exact kwScan_eq_wrapAll (by decide) ("#include#include".data).length _
      none (le_refl _)
  rw [h1]
  rw [show kwScanPos ("#include".data)
      (keywordReplacement ⟨"#include", "red"⟩) none
      ("#include#include".data) = [0, 8] from by decide]

/-! ## Rejection advance: full match length versus one character (C10) -/

/-- Modelled from the claim's variant: identical to `kwLoop` except that a
rejected candidate advances the cursor by one character instead of the
full match length. -/
def kwLoopVar (kw repl : List Char) (s : List Char) (pos : Nat) : List Char :=
  kwLoopAdv kw repl 1 s pos

theorem occursAt_append_add {pat w t : List Char} {j : Nat} :
    occursAt pat (w ++ t) (w.length + j) = occursAt pat t j := by
  unfold occursAt
  rw [List.drop_append]

theorem findSubstr_append_of_none_before {kw w t : List Char}
    (hno : ∀ r, r < w.length → occursAt kw (w ++ t) r = false) :
    findSubstr kw (w ++ t) = (findSubstr kw t).map (· + w.length) := by
  cases h : findSubstr kw t with
  | none =>
    simp only [Option.map_none']
    rw [findSubstr_eq_none_iff]
    intro r
    by_cases hr : r < w.length
    · exact hno r hr
    · rw [show r = w.length + (r - w.length) by omega, occursAt_append_add]
      exact findSubstr_eq_none_iff.mp h _
  | some x =>
    simp only [Option.map_some']
    rw [findSubstr_eq_some_iff]
    obtain ⟨h1, h2⟩ := findSubstr_eq_some_iff.mp h
    constructor
    · rw [show x + w.length = w.length + x by omega, occursAt_append_add]
      exact h1
    · intro r hr
      by_cases hrw : r < w.length
      · exact hno r hrw
      · rw [show r = w.length + (r - w.length) by omega, occursAt_append_add]
        exact h2 _ (by omega)

theorem boundaryOkBefore_append {w t : List Char} {prev : Option Char}
    {q : Nat} :
    boundaryOkBefore prev (w ++ t) (w.length + q)
      = boundaryOkBefore (lastOr w prev) t q := by
  unfold boundaryOkBefore
  by_cases hq : q = 0
  · subst hq
    cases w with
    | nil => simp [lastOr]
    | cons c cs =>
      rw [if_neg (show ¬((c :: cs).length + 0 = 0) by simp), if_pos rfl]
      have hidx : ((c :: cs) ++ t)[(c :: cs).length + 0 - 1]?
          = (c :: cs).getLast? := by
        rw [show (c :: cs).length + 0 - 1 = (c :: cs).length - 1 by omega]
        rw [List.getElem?_append, if_pos (by simp)]
        rw [← List.getLast?_eq_getElem?]
      rw [hidx]
      unfold lastOr
      cases hgl : (c :: cs).getLast? with
      | none => exact absurd (List.getLast?_eq_none_iff.mp hgl) (by simp)
      | some v => rfl
  · rw [if_neg (show ¬(w.length + q = 0) by omega), if_neg hq]
    rw [show w.length + q - 1 = w.length + (q - 1) by omega, getElem?_append_add]

theorem boundaryOkAfter_append {kw w t : List Char} {q : Nat} :
    boundaryOkAfter kw (w ++ t) (w.length + q) = boundaryOkAfter kw t q := by
  unfold boundaryOkAfter
  rw [show w.length + q + kw.length = w.length + (q + kw.length) by omega,
    getElem?_append_add]

theorem lastOr_append {x y : List Char} {d : Option Char} :
    lastOr (x ++ y) d = lastOr y (lastOr x d) := by
  rw [lastOr_eq_or, lastOr_eq_or, lastOr_eq_or, List.getLast?_append]
  cases y.getLast? <;> rfl

/-- If no occurrence of the keyword starts inside the prefix `w`, the
one-character-advance scan passes over `w` untouched. -/
theorem kwScanVar_skip {kw repl : List Char} (hk : kw ≠ [])
    {w t : List Char} {prev : Option Char}
    (hno : ∀ r, r < w.length → occursAt kw (w ++ t) r = false) :
    kwScanAdv kw repl 1 prev (w ++ t)
      = w ++ kwScanAdv kw repl 1 (lastOr w prev) t := by
  have hkw : ¬(kw.isEmpty = true) := fun hh => hk (List.isEmpty_iff.mp hh)
  rw [kwScanAdv_unfold (le_refl 1), kwScanAdv_unfold (le_refl 1)]
  rw [if_neg hkw, if_neg hkw]
  rw [findSubstr_append_of_none_before hno]
  cases hq : findSubstr kw t with
  | none => dsimp only [Option.map]
  | some q =>
    dsimp only [Option.map]
    rw [show q + w.length = w.length + q by omega]
    rw [boundaryOkBefore_append, boundaryOkAfter_append]
    by_cases hok : (boundaryOkBefore (lastOr w prev) t q
        && boundaryOkAfter kw t q) = true
    · rw [if_pos hok, if_pos hok]
      rw [List.take_append]
      rw [show w.length + q + kw.length = w.length + (q + kw.length) by omega,
        List.drop_append]
      have hpp : lastOr (w ++ t.take q ++ repl) prev
          = lastOr (t.take q ++ repl) (lastOr w prev) := by
        rw [List.append_assoc, lastOr_append]
      rw [hpp]
      simp [List.append_assoc]
    · rw [if_neg hok, if_neg hok]
      rw [show w.length + q + 1 = w.length + (q + 1) by omega]
      rw [List.take_append, List.drop_append]
      have hpp : lastOr (w ++ t.take (q + 1)) prev
          = lastOr (t.take (q + 1)) (lastOr w prev) := lastOr_append
      rw [hpp]
      simp [List.append_assoc]

theorem lastOr_drop {kw : List Char} {j : Nat} (hj1 : 1 ≤ j)
    (hj2 : j ≤ kw.length) :
    lastOr (kw.drop j) (kw[j - 1]?) = kw[kw.length - 1]? := by
  by_cases hjl : j = kw.length
  · subst hjl
    rw [List.drop_length]
    rfl
  · have hjlt : j < kw.length := by omega
    unfold lastOr
    have hgl : (kw.drop j).getLast? = kw[kw.length - 1]? := by
      rw [List.getLast?_eq_getElem?, List.length_drop, List.getElem?_drop]
      congr 1
      omega
    rw [hgl]
    obtain ⟨c, hc⟩ : ∃ c, kw[kw.length - 1]? = some c := by
      cases h : kw[kw.length - 1]? with
      | none =>
        rw [List.getElem?_eq_none_iff] at h
        have : 1 ≤ kw.length := by
          cases kw with
          | nil => omega
          | cons x xs => simp
        omega
      | some c => exact ⟨c, rfl⟩
    rw [hc]

/-- Window lemma for C10: once the one-character-advance scan stands `j`
characters into a rejected match of the keyword, it rejects every
candidate starting inside the remainder of that match and leaves the
window unchanged, emerging at the end of the match with the match's last
character as the preceding character. -/
theorem kwScanVar_window {kw repl : List Char} (hk : kw ≠ [])
    (hgood : ∀ j, j < kw.length → 1 ≤ j → kw[j]? = kw[0]? →
      isAlnum (kw.getD (j - 1) ' ') = true) :
    ∀ m j t, 1 ≤ j → j ≤ kw.length → kw.length - j ≤ m →
      kwScanAdv kw repl 1 (kw[j - 1]?) (kw.drop j ++ t)
        = kw.drop j ++ kwScanAdv kw repl 1 (kw[kw.length - 1]?) t := by
  have hkw : ¬(kw.isEmpty = true) := fun hh => hk (List.isEmpty_iff.mp hh)
  intro m
  induction m with
  | zero =>
    intro j t hj1 hj2 hm
    have hj : j = kw.length := by omega
    subst hj
    rw [List.drop_length]
    simp
  | succ m ihm =>
    intro j t hj1 hj2 hm
    by_cases hjl : j = kw.length
    · subst hjl
      rw [List.drop_length]
      simp
    · have hjlt : j < kw.length := by omega
      have hlendrop : (kw.drop j).length = kw.length - j := List.length_drop j kw
      cases hq : findSubstr kw (kw.drop j ++ t) with
      | none =>
        rw [kwScanVar_skip hk (fun r hr => findSubstr_eq_none_iff.mp hq r)]
        rw [lastOr_drop hj1 hj2]
      | some q0 =>
        obtain ⟨hocc0, hmin0⟩ := findSubstr_eq_some_iff.mp hq
        by_cases hqin : q0 < kw.length - j
        · rw [kwScanAdv_unfold (le_refl 1), if_neg hkw, hq]
          dsimp only
          have hchar0 : kw[j + q0]? = kw[0]? := by
            have h1 := occursAt_getElem hocc0
              (show 0 < kw.length by omega)
            rw [Nat.add_zero] at h1
            rw [← h1]
            rw [List.getElem?_append, if_pos (by omega)]
            rw [List.getElem?_drop]
          have halj : isAlnum (kw.getD (j + q0 - 1) ' ') = true :=
            hgood (j + q0) (by omega) (by omega) hchar0
          obtain ⟨cj, hcj⟩ : ∃ c, kw[j + q0 - 1]? = some c := by
            cases h : kw[j + q0 - 1]? with
            | none =>
              rw [List.getElem?_eq_none_iff] at h
              omega
            | some c => exact ⟨c, rfl⟩
          have hcjal : isAlnum cj = true := by
            rw [List.getD_eq_getElem?_getD, hcj] at halj
            exact halj
          have hreject : (boundaryOkBefore (kw[j - 1]?) (kw.drop j ++ t) q0
              && boundaryOkAfter kw (kw.drop j ++ t) q0) = false := by
            have hbef : boundaryOkBefore (kw[j - 1]?) (kw.drop j ++ t) q0
                = false := by
              unfold boundaryOkBefore
              by_cases hq0 : q0 = 0
              · subst hq0
                rw [if_pos rfl]
                rw [show kw[j - 1]? = some cj from by
                  rw [show j - 1 = j + 0 - 1 by omega]
                  exact hcj]
                dsimp only
                rw [hcjal]
                rfl
              · rw [if_neg hq0]
                have hidx : (kw.drop j ++ t)[q0 - 1]? = some cj := by
                  rw [List.getElem?_append, if_pos (by omega)]
                  rw [List.getElem?_drop]
                  rw [show j + (q0 - 1) = j + q0 - 1 by omega]
                  exact hcj
                rw [hidx]
                dsimp only
                rw [hcjal]
                rfl
            rw [hbef]
            rfl
          rw [hreject]
          simp only [Bool.false_eq_true, if_false]
          rw [List.take_append_of_le_length (by omega),
            List.drop_append_of_le_length (by omega)]
          rw [show (kw.drop j).drop (q0 + 1) = kw.drop (j + (q0 + 1)) from by
            rw [List.drop_drop]]
          have hprev : lastOr ((kw.drop j).take (q0 + 1)) (kw[j - 1]?)
              = kw[j + (q0 + 1) - 1]? := by
            have hgl : ((kw.drop j).take (q0 + 1)).getLast? = kw[j + q0]? := by
              rw [getLast?_take_eq (by omega) (by rw [hlendrop]; omega),
                List.getElem?_drop]
              congr 1
            unfold lastOr
            obtain ⟨cq, hcq⟩ : ∃ c, kw[j + q0]? = some c := by
              cases h : kw[j + q0]? with
              | none =>
                rw [List.getElem?_eq_none_iff] at h
                omega
              | some c => exact ⟨c, rfl⟩
            rw [hgl, hcq]
            dsimp only
            rw [show j + (q0 + 1) - 1 = j + q0 by omega, hcq]
          rw [hprev]
          rw [ihm (j + (q0 + 1)) t (by omega) (by omega) (by omega)]
          have hglue : (kw.drop j).take (q0 + 1) ++ kw.drop (j + (q0 + 1))
              = kw.drop j := by
            conv_rhs => rw [← List.take_append_drop (q0 + 1) (kw.drop j)]
            rw [List.drop_drop]
          rw [← List.append_assoc, hglue]
        · have hno : ∀ r, r < (kw.drop j).length →
              occursAt kw (kw.drop j ++ t) r = false := by
            intro r hr
            rw [hlendrop] at hr
            exact hmin0 r (by omega)
          rw [kwScanVar_skip hk hno, lastOr_drop hj1 hj2]

/-- Advancing by the full match length on rejection computes the same
result as advancing by one character, for any keyword in which a
character equal to the keyword's first character is always preceded
(inside the keyword) by an alphanumeric character. -/
theorem kwScanAdv_len_eq_one {kw repl : List Char} (hk : kw ≠ [])
    (hgood : ∀ j, j < kw.length → 1 ≤ j → kw[j]? = kw[0]? →
      isAlnum (kw.getD (j - 1) ' ') = true) :
    ∀ n s prev, s.length ≤ n →
      kwScanAdv kw repl kw.length prev s = kwScanAdv kw repl 1 prev s := by
  have hk1 : 1 ≤ kw.length := by
    cases kw with
    | nil => exact absurd rfl hk
    | cons c cs => simp
  have hkw : ¬(kw.isEmpty = true) := fun hh => hk (List.isEmpty_iff.mp hh)
  intro n
  induction n with
  | zero =>
    intro s prev hs
    have hsn : s = [] := List.length_eq_zero.mp (by omega)
    subst hsn
    rw [kwScanAdv_nil, kwScanAdv_nil]
  | succ n ih =>
    intro s prev hs
    rw [kwScanAdv_unfold hk1, kwScanAdv_unfold (le_refl 1)]
    rw [if_neg hkw, if_neg hkw]
    cases hq : findSubstr kw s with
    | none => rfl
    | some q =>
      dsimp only
      obtain ⟨hocc, hmin⟩ := findSubstr_eq_some_iff.mp hq
      have hb : q + kw.length ≤ s.length := occursAt_length hk hocc
      by_cases hok : (boundaryOkBefore prev s q
          && boundaryOkAfter kw s q) = true
      · rw [if_pos hok, if_pos hok]
        rw [ih _ _ (by simp [List.length_drop]; omega)]
      · rw [if_neg hok, if_neg hok]
        have hdq : s.drop q = kw ++ s.drop (q + kw.length) :=
          occursAt_drop_eq hocc
        have hdq1 : s.drop (q + 1) = kw.drop 1 ++ s.drop (q + kw.length) := by
          have h1 : s.drop (q + 1) = (s.drop q).drop 1 :=
            (List.drop_drop 1 q s).symm
          rw [h1, hdq, List.drop_append_of_le_length (by omega)]
        have hprevV : lastOr (s.take (q + 1)) prev = kw[0]? := by
          unfold lastOr
          rw [getLast?_take_eq (by omega) (by omega)]
          have hch := occursAt_getElem hocc (show 0 < kw.length by omega)
          rw [Nat.add_zero] at hch
          rw [show q + 1 - 1 = q by omega, hch]
          obtain ⟨c0, hc0⟩ : ∃ c, kw[0]? = some c := by
            cases h : kw[0]? with
            | none =>
              rw [List.getElem?_eq_none_iff] at h
              omega
            | some c => exact ⟨c, rfl⟩
          rw [hc0]
        have hprevA : lastOr (s.take (q + kw.length)) prev
            = kw[kw.length - 1]? := by
          unfold lastOr
          rw [getLast?_take_eq (by omega) (by omega)]
          have hch := occursAt_getElem hocc
            (show kw.length - 1 < kw.length by omega)
          rw [show q + (kw.length - 1) = q + kw.length - 1 by omega] at hch
          rw [hch]
          obtain ⟨cl, hcl⟩ : ∃ c, kw[kw.length - 1]? = some c := by
            cases h : kw[kw.length - 1]? with
            | none =>
              rw [List.getElem?_eq_none_iff] at h
              omega
            | some c => exact ⟨c, rfl⟩
          rw [hcl]
        rw [hprevV, hprevA, hdq1]
        rw [show (kw[0]? : Option Char) = kw[1 - 1]? from rfl]
        rw [kwScanVar_window hk hgood kw.length 1 (s.drop (q + kw.length))
          (le_refl 1) hk1 (by omega)]
        rw [ih _ _ (by simp [List.length_drop]; omega)]
        have htake : s.take (q + kw.length) = s.take (q + 1) ++ kw.drop 1 := by
          rw [show q + kw.length = (q + 1) + (kw.length - 1) by omega,
            List.take_add]
          congr 1
          rw [hdq1, List.take_append_of_le_length
            (by simp [List.length_drop]),
            List.take_of_length_le (by simp [List.length_drop])]
        rw [htake, List.append_assoc]

/-- C10: for every rule of the fixed keyword table and every input,
the source's cursor policy — advancing past the full raw match length when
the word-boundary check rejects a candidate — produces exactly the same
output as a variant that advances by only one character on rejection.
Any occurrence of the keyword starting strictly inside a rejected match
would begin with the keyword's first character, which inside these
keywords is always preceded by an alphanumeric keyword character (or, for
`#include`, cannot recur at all), so the variant rejects it too. -/
theorem c10_reject_advance (kc : KeywordColor)
    (hkc : kc ∈ keywordsWithColors) (s : List Char) :
    kwLoop kc.keyword.data (keywordReplacement kc) s 0
      = kwLoopVar kc.keyword.data (keywordReplacement kc) s 0 := by
  have hk : kc.keyword.data ≠ [] := by
    fin_cases hkc <;> decide
  have hgood : ∀ j, j < kc.keyword.data.length → 1 ≤ j →
      kc.keyword.data[j]? = kc.keyword.data[0]? →
      isAlnum (kc.keyword.data.getD (j - 1) ' ') = true := by
    fin_cases hkc <;> decide
  have hk1 : 1 ≤ kc.keyword.data.length := by
    by_contra h
    exact hk (List.length_eq_zero.mp (by omega))
  unfold kwLoop kwLoopVar
  rw [kwLoopAdv_eq_scan hk1 s, kwLoopAdv_eq_scan (le_refl 1) s]
  exact kwScanAdv_len_eq_one hk hgood s.length s none (le_refl _)

/-- Witness for C10: the `if` rule on `ifif if`, where the candidate at
position 0 is rejected and the skipped positions hide no acceptable
occurrence. -/
theorem c10_reject_advance_witness :
    kwLoop ("if".data) (keywordReplacement ⟨"if", "darkorange"⟩)
        ("ifif if".data) 0
      = kwLoopVar ("if".data) (keywordReplacement ⟨"if", "darkorange"⟩)
          ("ifif if".data) 0 :=
  c10_reject_advance ⟨"if", "darkorange"⟩ (by decide) ("ifif if".data)
